import Mathlib

/-!
Verification of the incremental source-analysis and cross-file symbol-tracking
subsystem of an AutoIt editor extension.

The development shallowly embeds the line-oriented, regex-driven parsing code of
`src/parsers/MapParser.js`, the merge logic of `src/services/MapTrackingService.js`
and the workspace-symbol batching of `src/ai_workspaceSymbols.js`.  Regexes are
embedded as character-level matchers over `List Char` with the same matching
semantics on ASCII input (the only subtlety, greedy repetition followed by a
literal that cannot begin a repetition item, makes backtracking irrelevant, so
maximal munch is faithful).  Container names are matched literally and
case-insensitively, as the code builds its regexes from the name with only `$`
escaped and valid AutoIt variable names contain no other metacharacters.

`IncludeResolver.js` is not part of the analysed sources (only its tests and
callers are); its operations are modelled from the specification, as indicated
on each such definition.
-/

namespace AutoItMap

/-- `\s` character class / `String.trim` whitespace. -/
def isWsChar (c : Char) : Bool := c.isWhitespace

/-- `trim`: strip whitespace from both ends. -/
def trimChars (cs : List Char) : List Char :=
  ((cs.dropWhile isWsChar).reverse.dropWhile isWsChar).reverse

def sTrim (s : String) : String := String.mk (trimChars s.data)

def sStartsWith (s pre : String) : Bool := pre.data.isPrefixOf s.data

/-- `toLowerCase` (ASCII). -/
def charToLower (c : Char) : Char :=
  if 'A' ≤ c ∧ c ≤ 'Z' then Char.ofNat (c.toNat + 32) else c

def sToLower (s : String) : String := String.mk (s.data.map charToLower)

/-- `split(sep)` for a one-character separator (JS `String.prototype.split`:
the empty string yields `[""]`). -/
def splitOnCharAux (sep : Char) : List Char → List Char → List String
  | [], acc => [String.mk acc.reverse]
  | c :: cs, acc =>
    if c = sep then String.mk acc.reverse :: splitOnCharAux sep cs []
    else splitOnCharAux sep cs (c :: acc)

def splitOnChar (sep : Char) (s : String) : List String := splitOnCharAux sep s.data []

/-- `join(sep)`. -/
def joinWith (sep : String) : List String → String
  | [] => ""
  | s :: rest => rest.foldl (fun a b => a ++ sep ++ b) s

/-- `\s*`: drop leading whitespace. -/
def skipWs (cs : List Char) : List Char := cs.dropWhile isWsChar

/-- `\w` character class `[A-Za-z0-9_]`. -/
def isWordChar (c : Char) : Bool := c.isAlphanum || c == '_'

/-- Case-insensitive character comparison (the `i` regex flag / `toLowerCase`). -/
def lowerEq (a b : Char) : Bool := charToLower a == charToLower b

/-- Case-insensitively strip `pat` from the front of `cs`. -/
def stripPrefixCI : List Char → List Char → Option (List Char)
  | [], cs => some cs
  | _ :: _, [] => none
  | p :: ps, c :: cs => if lowerEq p c then stripPrefixCI ps cs else none

/-- A quote character, `["']`. -/
def isQuote (c : Char) : Bool := c == '"' || c == '\''

/-- `[^"']`. -/
def notQuote (c : Char) : Bool := !(isQuote c)

/-- Match a keyword case-insensitively, returning the matched text as written. -/
def tryKw (kw : String) (cs : List Char) : Option (String × List Char) :=
  match stripPrefixCI kw.data cs with
  | some rest => some (String.mk (cs.take kw.data.length), rest)
  | none => none

/-- Keyword followed by `\s+`, whitespace then skipped. -/
def tryKwWs (kw : String) (cs : List Char) : Option (String × List Char) :=
  match tryKw kw cs with
  | some (s, c :: rest) => if isWsChar c then some (s, skipWs rest) else none
  | _ => none

/-- The alternation `(Local|Global|Dim|Static)\s+`, alternatives tried in the
regex's order. -/
def matchScopeKw (cs : List Char) : Option (String × List Char) :=
  (tryKwWs "Local" cs) <|> (tryKwWs "Global" cs) <|> (tryKwWs "Dim" cs) <|>
    (tryKwWs "Static" cs)

/-- `\$[a-zA-Z_]\w*`: an AutoIt variable name. -/
def readVarName : List Char → Option (String × List Char)
  | '$' :: c :: cs =>
    if c.isAlpha || c == '_' then
      some (String.mk ('$' :: c :: cs.takeWhile isWordChar), cs.dropWhile isWordChar)
    else none
  | _ => none

/-- `MapParser.parseMapDeclarations` line pattern
`^\s*(Local|Global|Dim|Static)\s+(\$[a-zA-Z_]\w*)\s*\[\s*\]` (case-insensitive);
returns `(scope-as-written, name)`. -/
def matchMapDecl (line : String) : Option (String × String) :=
  match matchScopeKw (skipWs line.data) with
  | none => none
  | some (sc, cs) =>
    match readVarName cs with
    | none => none
    | some (nm, cs2) =>
      match skipWs cs2 with
      | '[' :: cs3 =>
        match skipWs cs3 with
        | ']' :: _ => some (sc, nm)
        | _ => none
      | _ => none

/-- Case-insensitively strip the container name (the code interpolates the name
into its regexes escaping only `$`, so the name is matched literally). -/
def stripNameCI (name : String) (cs : List Char) : Option (List Char) :=
  stripPrefixCI name.data cs

/-- `MapParser.parseKeyAssignments` dot pattern `^\s*NAME\.(\w+)\s*=`. -/
def matchDot (name : String) (line : String) : Option String :=
  match stripNameCI name (skipWs line.data) with
  | some ('.' :: cs) =>
    match cs.takeWhile isWordChar with
    | [] => none
    | key =>
      match skipWs (cs.dropWhile isWordChar) with
      | '=' :: _ => some (String.mk key)
      | _ => none
  | _ => none

/-- `MapParser.parseKeyAssignments` bracket pattern
`^\s*NAME\[["']([^"']+)["']\]\s*=` (opening and closing quote need not match,
exactly as in the regex). -/
def matchBracketKey (name : String) (line : String) : Option String :=
  match stripNameCI name (skipWs line.data) with
  | some ('[' :: c :: cs) =>
    if isQuote c then
      match cs.takeWhile notQuote with
      | [] => none
      | key =>
        match cs.dropWhile notQuote with
        | q :: ']' :: rest =>
          if isQuote q then
            match skipWs rest with
            | '=' :: _ => some (String.mk key)
            | _ => none
          else none
        | _ => none
    else none
  | _ => none

/-- One bracket group `\[["']([^"']+)["']\]` of the nested-chain pattern. -/
def readBrGroup : List Char → Option (String × List Char)
  | '[' :: c :: cs =>
    if isQuote c then
      match cs.takeWhile notQuote with
      | [] => none
      | key =>
        match cs.dropWhile notQuote with
        | q :: ']' :: rest => if isQuote q then some (String.mk key, rest) else none
        | _ => none
    else none
  | _ => none

/-- Greedy repetition `(?:\[["']([^"']+)["']\])+` of bracket groups (maximal
munch; the regex's backtracking cannot succeed where maximal munch fails,
because a shorter match leaves `[` where `\s*=` is required).  Structured with
explicit fuel so that closed terms reduce; every successful group consumes at
least one character (`readBrGroup_length`), so fuel `cs.length` never runs
out, and `readBrGroupsF_eq_of_le` shows any sufficient fuel gives the same
result. -/
def readBrGroupsF : Nat → List Char → List String × List Char
  | 0, cs => ([], cs)
  | fuel + 1, cs =>
    match readBrGroup cs with
    | some (k, rest) =>
      let p := readBrGroupsF fuel rest
      (k :: p.1, p.2)
    | none => ([], cs)

def readBrGroups (cs : List Char) : List String × List Char :=
  readBrGroupsF cs.length cs

/-- `MapParser.parseNestedKeyStructure`: key chain of
`^\s*NAME((?:\[["']([^"']+)["']\])+)\s*=`, kept only when it has at least two
keys. -/
def parseNestedKeyStructure (line : String) (name : String) : List String :=
  match stripNameCI name (skipWs line.data) with
  | none => []
  | some cs =>
    match readBrGroups cs with
    | ([], _) => []
    | (ks, rest) =>
      match skipWs rest with
      | '=' :: _ => if ks.length > 1 then ks else []
      | _ => []

/-- `MapParser.parseDynamicKeysFromLine`: `^\s*NAME\[(\$[a-zA-Z_]\w*)\]\s*=`;
at most one dynamic key per line, as the code uses a single non-global match. -/
def parseDynamicKeysFromLine (line : String) (name : String) : List String :=
  match stripNameCI name (skipWs line.data) with
  | some ('[' :: '$' :: c :: cs) =>
    if c.isAlpha || c == '_' then
      match cs.dropWhile isWordChar with
      | ']' :: rest =>
        match skipWs rest with
        | '=' :: _ => [String.mk ('$' :: c :: cs.takeWhile isWordChar)]
        | _ => []
      | _ => []
    else []
  | _ => []

/-- `MapParser.parseFunctionBoundaries` start pattern
`^\s*Func\s+(\w+)\s*\((.*?)\)` (case-insensitive); the lazy group captures up
to the first `)`. -/
def matchFuncStart (line : String) : Option (String × String) :=
  match stripPrefixCI "Func".data (skipWs line.data) with
  | some (c :: rest) =>
    if isWsChar c then
      let cs := skipWs rest
      match cs.takeWhile isWordChar with
      | [] => none
      | nm =>
        match skipWs (cs.dropWhile isWordChar) with
        | '(' :: ps =>
          match ps.dropWhile (fun d => d ≠ ')') with
          | [] => none
          | _ :: _ => some (String.mk nm, String.mk (ps.takeWhile (fun d => d ≠ ')')))
        | _ => none
    else none
  | _ => none

/-- `MapParser.parseFunctionBoundaries` end pattern `^\s*EndFunc` (case-insensitive). -/
def matchFuncEnd (line : String) : Bool :=
  (stripPrefixCI "EndFunc".data (skipWs line.data)).isSome

/-- `^\s*(\w+)\s*\((.*?)\)` of `MapParser.getKeysFromFunctionCalls`. -/
def matchFuncCall (line : String) : Option (String × String) :=
  let cs := skipWs line.data
  match cs.takeWhile isWordChar with
  | [] => none
  | nm =>
    match skipWs (cs.dropWhile isWordChar) with
    | '(' :: ps =>
      match ps.dropWhile (fun d => d ≠ ')') with
      | [] => none
      | _ :: _ => some (String.mk nm, String.mk (ps.takeWhile (fun d => d ≠ ')')))
    | _ => none

/-- `source.split('\n')` of the `MapParser` constructor. -/
def linesOf (src : String) : List String := splitOnChar '\n' src

/-- Lines paired with their indices (the `forEach((line, index))` iteration). -/
def enumFrom {α : Type} : Nat → List α → List (Nat × α)
  | _, [] => []
  | n, a :: as => (n, a) :: enumFrom (n + 1) as

/-- A comment line, skipped by the declaration and assignment scans:
`line.trim().startsWith(';')`. -/
def isCommentLine (line : String) : Bool := sStartsWith (sTrim line) ";"

/-- A Map declaration `{name, scope, line}` (`MapParser.parseMapDeclarations`). -/
structure MapDecl where
  name : String
  scope : String
  line : Nat
deriving DecidableEq, Repr

/-- `MapParser.parseMapDeclarations`: line-by-line scan, skipping comment
lines, collecting `(Local|Global|Dim|Static) $name[]` matches. -/
def parseMapDeclarations (lines : List String) : List MapDecl :=
  (enumFrom 0 lines).filterMap fun il =>
    if isCommentLine il.2 then none
    else (matchMapDecl il.2).map fun scnm => ⟨scnm.2, scnm.1, il.1⟩

/-- One key assignment (`MapParser.parseKeyAssignments` result element);
`nota` is the source's `notation` field. -/
structure Assignment where
  key : String
  line : Nat
  nota : String
  nested : List String
  isDynamic : Bool
deriving DecidableEq, Repr

/-- The body of the `forEach` of `MapParser.parseKeyAssignments` for one line:
nested chain first, then dynamic keys, then dot notation, then single-bracket
notation; the first matching pattern emits and the rest are not tried. -/
def lineAssign (mapName : String) (idx : Nat) (line : String) : List Assignment :=
  if isCommentLine line then []
  else
    match parseNestedKeyStructure line mapName with
    | k :: ks => [⟨k, idx, "bracket", k :: ks, false⟩]
    | [] =>
      match parseDynamicKeysFromLine line mapName with
      | d :: ds => (d :: ds).map fun dk => ⟨dk, idx, "bracket", [], true⟩
      | [] =>
        match matchDot mapName line with
        | some k => [⟨k, idx, "dot", [], false⟩]
        | none =>
          match matchBracketKey mapName line with
          | some k => [⟨k, idx, "bracket", [], false⟩]
          | none => []

/-- `MapParser.parseKeyAssignments`. -/
def parseKeyAssignments (lines : List String) (mapName : String) : List Assignment :=
  (enumFrom 0 lines).flatMap fun il => lineAssign mapName il.1 il.2

/-- A node of the nested key tree (`NestedKeyNode`); children keep JS object
key-insertion order as an association list. -/
inductive NKTree where
  | node (key : String) (line : Nat) (nota : String) (isLeaf : Bool)
      (isDynamic : Bool) (children : List (String × NKTree))

def NKTree.key : NKTree → String
  | .node k _ _ _ _ _ => k

def NKTree.line : NKTree → Nat
  | .node _ l _ _ _ _ => l

def NKTree.nota : NKTree → String
  | .node _ _ n _ _ _ => n

def NKTree.isLeaf : NKTree → Bool
  | .node _ _ _ b _ _ => b

def NKTree.isDynamic : NKTree → Bool
  | .node _ _ _ _ d _ => d

def NKTree.children : NKTree → List (String × NKTree)
  | .node _ _ _ _ _ c => c

/-- JS `Map.get` / object property access: first entry with the key. -/
def alookup {β : Type} (k : String) : List (String × β) → Option β
  | [] => none
  | (k1, v) :: rest => if k1 = k then some v else alookup k rest

/-- Children-map update at a key, keeping the key's position (JS object
property update). -/
def updateChild (ch : List (String × NKTree)) (k : String) (t : NKTree) :
    List (String × NKTree) :=
  ch.map fun kv => if kv.1 = k then (k, t) else kv

/-- The nested branch of `buildNestedMapStructure`'s fold: walk the chain,
creating missing nodes (`isLeaf` true exactly on the last chain element, the
recorded line is the assignment's) and never touching scalar fields of
existing nodes. -/
def insertChain (line : Nat) (nota : String) :
    List String → List (String × NKTree) → List (String × NKTree)
  | [], ch => ch
  | k :: rest, ch =>
    match alookup k ch with
    | some t => updateChild ch k (.node t.key t.line t.nota t.isLeaf t.isDynamic
        (insertChain line nota rest t.children))
    | none => ch ++ [(k, .node k line nota (rest.isEmpty) false
        (insertChain line nota rest []))]

/-- The flat branch of `buildNestedMapStructure`'s fold: add a depth-1 leaf
child unless the key already exists. -/
def insertFlat (a : Assignment) (ch : List (String × NKTree)) :
    List (String × NKTree) :=
  match alookup a.key ch with
  | some _ => ch
  | none => ch ++ [(a.key, .node a.key a.line a.nota true a.isDynamic [])]

/-- One assignment folded into the tree (`buildNestedMapStructure`'s
`assignments.forEach` body): a nested chain extends tree paths, a flat key
becomes a depth-1 child. -/
def buildStep (root : List (String × NKTree)) (a : Assignment) :
    List (String × NKTree) :=
  match a.nested with
  | _ :: _ => insertChain a.line a.nota a.nested root
  | [] => insertFlat a root

/-- `MapParser.buildNestedMapStructure`: fold all key assignments into the
nested tree; the result is the root's children map. -/
def buildNestedMapStructure (lines : List String) (mapName : String) :
    List (String × NKTree) :=
  (parseKeyAssignments lines mapName).foldl buildStep []

/-- A function boundary `{name, startLine, endLine, parameters}`
(`MapParser.parseFunctionBoundaries`). -/
structure FuncB where
  name : String
  startLine : Nat
  endLine : Nat
  parameters : List String
deriving DecidableEq, Repr

/-- Parameter list parsing of `parseFunctionBoundaries`: split on `,`, strip a
default value after `=`, trim. -/
def parseParams (s : String) : List String :=
  if sTrim s = "" then []
  else (splitOnChar ',' (sTrim s)).map
    fun p => sTrim (((splitOnChar '=' (sTrim p)).headD ""))

/-- One step of the `parseFunctionBoundaries` scan: a `Func` line opens a
function (replacing any unterminated one), an `EndFunc` line closes the open
one. -/
def funcScanStep (st : List FuncB × Option (String × Nat × List String))
    (il : Nat × String) : List FuncB × Option (String × Nat × List String) :=
  match matchFuncStart il.2 with
  | some (nm, ps) => (st.1, some (nm, il.1, parseParams ps))
  | none =>
    if matchFuncEnd il.2 then
      match st.2 with
      | some (nm, start, params) => (st.1 ++ [⟨nm, start, il.1, params⟩], none)
      | none => st
    else st

/-- `MapParser.parseFunctionBoundaries`: single forward scan; a function whose
terminator is never found is dropped. -/
def parseFunctionBoundaries (lines : List String) : List FuncB :=
  ((enumFrom 0 lines).foldl funcScanStep ([], none)).1

/-- `MapParser.getFunctionAtLine`: first parsed boundary containing the line. -/
def getFunctionAtLine (fns : List FuncB) (line : Nat) : Option FuncB :=
  fns.find? fun f => f.startLine ≤ line && line ≤ f.endLine

/-- One iteration of the closest-declaration loop of
`MapParser.getKeysForMapAtLine` (its `for (const decl of declarations)`):
`cur` is the current `closestDecl`; `closestDistance` is always
`targetLine - cur.line`, which the code keeps in a separate variable updated in
lock-step. -/
def declStep (fns : List FuncB) (cf : Option FuncB) (mapName : String)
    (targetLine : Nat) (cur : Option MapDecl) (decl : MapDecl) : Option MapDecl :=
  if sToLower decl.name ≠ sToLower mapName then cur
  else if targetLine < decl.line then cur
  else
    let declFunc := getFunctionAtLine fns decl.line
    let distOk : Bool := match cur with
      | none => true
      | some c => decide (targetLine - decl.line ≤ targetLine - c.line)
    match cf with
    | some cfn =>
      match declFunc with
      | some df =>
        if df.name = cfn.name then
          if distOk then some decl else cur
        else cur
      | none =>
        if sToLower decl.scope = "global" then
          if (match cur with
              | none => true
              | some c => decide (sToLower c.scope ≠ "local")) then
            if distOk then some decl else cur
          else cur
        else cur
    | none =>
      match declFunc with
      | none => if distOk then some decl else cur
      | some _ => cur

/-- The winning declaration of `getKeysForMapAtLine`'s selection loop. -/
def closestDeclFor (lines : List String) (mapName : String) (targetLine : Nat) :
    Option MapDecl :=
  let fns := parseFunctionBoundaries lines
  let cf := getFunctionAtLine fns targetLine
  (parseMapDeclarations lines).foldl (declStep fns cf mapName targetLine) none

/-- JS `Set` insertion: append unless present (insertion order preserved). -/
def insertIfAbsent (acc : List String) (k : String) : List String :=
  if k ∈ acc then acc else acc ++ [k]

/-- One iteration of the valid-assignment loop of `getKeysForMapAtLine`:
assignments strictly before the target line whose enclosing function matches
the scope of the winning declaration contribute their key to the `validKeys`
set. -/
def assignKeyStep (fns : List FuncB) (cf : Option FuncB) (declScope : String)
    (targetLine : Nat) (acc : List String) (a : Assignment) : List String :=
  if targetLine ≤ a.line then acc
  else
    let assignFunc := getFunctionAtLine fns a.line
    match cf with
    | some cfn =>
      match assignFunc with
      | some f => if f.name = cfn.name then insertIfAbsent acc a.key else acc
      | none => if sToLower declScope = "global" then insertIfAbsent acc a.key else acc
    | none =>
      match assignFunc with
      | none => insertIfAbsent acc a.key
      | some _ => acc

/-- The `directKeys` computation of `getKeysForMapAtLine`, given the winning
declaration. -/
def directKeysFor (lines : List String) (mapName : String) (targetLine : Nat)
    (closest : MapDecl) : List String :=
  let fns := parseFunctionBoundaries lines
  let cf := getFunctionAtLine fns targetLine
  (parseKeyAssignments lines mapName).foldl
    (assignKeyStep fns cf closest.scope targetLine) []

/-- A key added through a function call (`{key, addedInFunction}`). -/
structure CallKey where
  key : String
  addedInFunction : Bool
deriving DecidableEq, Repr

/-- A key added to a Map parameter inside a function
(`{key, line, addedInFunction}`). -/
structure ParamKey where
  key : String
  line : Nat
  addedInFunction : Bool
deriving DecidableEq, Repr

/-- `MapParser.getFunctionParameterKeys`: assignments to the parameter inside
the function's boundary. -/
def getFunctionParameterKeys (lines : List String) (functionName : String)
    (parameterName : String) : List ParamKey :=
  match (parseFunctionBoundaries lines).find? (fun f => f.name = functionName) with
  | none => []
  | some f =>
    if parameterName ∈ f.parameters then
      ((parseKeyAssignments lines parameterName).filter
          (fun a => f.startLine ≤ a.line && a.line ≤ f.endLine)).map
        fun a => ⟨a.key, a.line, true⟩
    else []

/-- One line of the `getKeysFromFunctionCalls` scan: a call site before the
target line passing the Map by name contributes the callee parameter's keys,
de-duplicated across call sites by the `seenKeys` set. -/
def callScanStep (lines : List String) (mapName : String) (targetLine : Nat)
    (st : List CallKey × List String) (il : Nat × String) :
    List CallKey × List String :=
  if targetLine ≤ il.1 then st
  else
    match matchFuncCall il.2 with
    | none => st
    | some (funcName, argsStr) =>
      let args := (splitOnChar ',' argsStr).map sTrim
      match args.indexOf? mapName with
      | none => st
      | some argIndex =>
        match (parseFunctionBoundaries lines).find? (fun f => f.name = funcName) with
        | none => st
        | some func =>
          match func.parameters.get? argIndex with
          | none => st
          | some paramName =>
            (getFunctionParameterKeys lines funcName paramName).foldl
              (fun st2 k =>
                if k.key ∈ st2.2 then st2
                else (st2.1 ++ [⟨k.key, true⟩], st2.2 ++ [k.key]))
              st

/-- `MapParser.getKeysFromFunctionCalls`. -/
def getKeysFromFunctionCalls (lines : List String) (mapName : String)
    (targetLine : Nat) : List CallKey :=
  ((enumFrom 0 lines).foldl (callScanStep lines mapName targetLine) ([], [])).1

/-- The `{directKeys, functionKeys}` result of `getKeysForMapAtLine`. -/
structure KeysResult where
  directKeys : List String
  functionKeys : List CallKey
deriving DecidableEq, Repr

/-- `MapParser.getKeysForMapAtLine`: scope-aware key lookup; no winning
declaration yields empty buckets. -/
def getKeysForMapAtLine (lines : List String) (mapName : String)
    (targetLine : Nat) (includeFunctionKeys : Bool) : KeysResult :=
  match closestDeclFor lines mapName targetLine with
  | none => ⟨[], []⟩
  | some closest =>
    ⟨directKeysFor lines mapName targetLine closest,
      if includeFunctionKeys then getKeysFromFunctionCalls lines mapName targetLine
      else []⟩

/-- JS `Map.set`: replace the value in place if the key exists, else append. -/
def mapSet {β : Type} (m : List (String × β)) (k : String) (v : β) :
    List (String × β) :=
  match m with
  | [] => [(k, v)]
  | (k', v') :: rest => if k' = k then (k', v) :: rest else (k', v') :: mapSet rest k v

/-- The `fileParsers` map of `MapTrackingService`: file path to the parser's
split lines (a `MapParser` is determined by its source text). -/
def ParserMap : Type := List (String × List String)

/-- `MapTrackingService.updateFile`: replace the cached parser for a path. -/
def svcUpdateFile (ps : ParserMap) (path : String) (src : String) : ParserMap :=
  mapSet ps path (linesOf src)

/-- `MapTrackingService.getKeysForMap`: local-only query; an untracked path
yields empty buckets. -/
def svcGetKeysForMap (ps : ParserMap) (path mapName : String) (line : Nat) :
    KeysResult :=
  match alookup path ps with
  | none => ⟨[], []⟩
  | some lns => getKeysForMapAtLine lns mapName line true

/-- The `getKeysForMap(includedFile, mapName, Infinity)` call: with
`targetLine = Infinity` every line index, declaration and assignment of the
file lies strictly before the target, which is exactly the behaviour at any
target of at least `lines.length`; the call is therefore embedded at target
`lines.length`. -/
def svcGetKeysForMapAtEnd (ps : ParserMap) (path mapName : String) : KeysResult :=
  match alookup path ps with
  | none => ⟨[], []⟩
  | some lns => getKeysForMapAtLine lns mapName lns.length true

/-- An include directive (`IncludeEdge`): `kind` is `"relative"` for a quoted
spec and `"library"` for an angle-bracket spec. -/
structure IncludeEdge where
  kind : String
  path : String
deriving DecidableEq, Repr

/-- Resolver configuration: configured library search paths and maximum
include depth. -/
structure ResolverCfg where
  libPaths : List String
  maxDepth : Nat
deriving Repr

/-- Modelled from the spec: `IncludeResolver.parseIncludes` is not under the
analysed sources; per spec §4.2 it is a regex scan ignoring commented lines,
classifying `"path"` as relative and `<path>` as library. -/
def parseIncludeLine (line : String) : Option IncludeEdge :=
  if isCommentLine line then none
  else
    match stripPrefixCI "#include".data (skipWs line.data) with
    | none => none
    | some rest =>
      match skipWs rest with
      | '"' :: cs =>
        match cs.dropWhile (fun d => d ≠ '"') with
        | [] => none
        | _ :: _ => some ⟨"relative", String.mk (cs.takeWhile (fun d => d ≠ '"'))⟩
      | '<' :: cs =>
        match cs.dropWhile (fun d => d ≠ '>') with
        | [] => none
        | _ :: _ => some ⟨"library", String.mk (cs.takeWhile (fun d => d ≠ '>'))⟩
      | _ => none

/-- Modelled from the spec: the per-file include scan of
`IncludeResolver.parseIncludes`. -/
def parseIncludes (text : String) : List IncludeEdge :=
  (linesOf text).filterMap parseIncludeLine

/-- Directory of a path (for resolving a relative include against the
directory of the including file). -/
def dirOf (p : String) : String := joinWith "/" ((splitOnChar '/' p).dropLast)

def joinPath (d f : String) : String := d ++ "/" ++ f

/-- The filesystem as seen by the analysed code: `exists?` is the resolver's
existence check (`fs.existsSync`), `read` the content read (`readFile`); a
file may exist yet fail to read (permissions, races), which is why the two are
separate. -/
structure FileSys where
  exists? : String → Bool
  read : String → Option String

/-- Modelled from the spec: `IncludeResolver.resolveIncludePath` is not under
the analysed sources; per spec §4.2 a relative spec is resolved against the
directory of the source path and existence-checked, a library spec is tried
against each configured library path in order; no match yields `null` and
never an error. -/
def resolveIncludePath (fs : FileSys) (cfg : ResolverCfg)
    (edge : IncludeEdge) (sourcePath : String) : Option String :=
  if edge.kind = "relative" then
    let cand := joinPath (dirOf sourcePath) edge.path
    if fs.exists? cand then some cand else none
  else
    (cfg.libPaths.map (fun lp => joinPath lp edge.path)).find? fs.exists?

/-- The resolved include targets of one file (a file whose content cannot be
read contributes none; per spec §4.2 filesystem errors are treated as "not
found", never thrown). -/
def childPaths (fs : FileSys) (cfg : ResolverCfg) (p : String) :
    List String :=
  match fs.read p with
  | none => []
  | some text => (parseIncludes text).filterMap
      (fun e => resolveIncludePath fs cfg e p)

/-- Modelled from the spec: the depth-bounded, visited-set traversal of
`IncludeResolver.resolveAllIncludes` (spec §4.2).  `dfsE fs cfg n cs vis`
processes candidate files `cs` with `n` remaining depth: a visited file is
skipped, a fresh file is emitted and, with one less depth unit, its own
includes are processed; at depth 0 nothing further is emitted.  Returns the
emitted files in order and the final visited set. -/
def dfsE (fs : FileSys) (cfg : ResolverCfg) :
    Nat → List String → List String → List String × List String
  | 0, _, vis => ([], vis)
  | n + 1, cs, vis =>
    cs.foldl
      (fun st c =>
        if c ∈ st.2 then st
        else
          let sub := dfsE fs cfg n (childPaths fs cfg c) (c :: st.2)
          (st.1 ++ c :: sub.1, sub.2))
      ([], vis)

/-- Modelled from the spec: `IncludeResolver.resolveAllIncludes`; the entry
file starts in the visited set and is excluded from the result. -/
def resolveAllIncludes (fs : FileSys) (cfg : ResolverCfg)
    (entry : String) : List String :=
  (dfsE fs cfg cfg.maxDepth (childPaths fs cfg entry) [entry]).1

/-- Result of `MapTrackingService.getKeysForMapWithIncludes` together with the
updated parser cache and the read-failure log entries. -/
structure IncResult where
  res : KeysResult
  parsers : ParserMap
  logs : List String

/-- The loop body of `getKeysForMapWithIncludes` for one included file: parse
and cache it on demand, skip it (logging the path) when it cannot be read,
union its `directKeys` into the set and append its `functionKeys`.  The state
is `(directKeys set, functionKeys, parser cache, log)`. -/
def includeStep (fs : FileSys) (mapName : String)
    (st : List String × List CallKey × ParserMap × List String) (f : String) :
    List String × List CallKey × ParserMap × List String :=
  let (dAcc, fAcc, ps, logs) := st
  match alookup f ps with
  | some _ =>
    let r := svcGetKeysForMapAtEnd ps f mapName
    (r.directKeys.foldl insertIfAbsent dAcc, fAcc ++ r.functionKeys, ps, logs)
  | none =>
    match fs.read f with
    | none => (dAcc, fAcc, ps, logs ++ [f])
    | some src =>
      let ps' := svcUpdateFile ps f src
      let r := svcGetKeysForMapAtEnd ps' f mapName
      (r.directKeys.foldl insertIfAbsent dAcc, fAcc ++ r.functionKeys, ps', logs)

/-- `MapTrackingService.getKeysForMapWithIncludes`: local result at the query
line, then each resolved included file queried at its end, `directKeys`
merged as a set and `functionKeys` concatenated. -/
def getKeysForMapWithIncludes (ps : ParserMap) (fs : FileSys)
    (cfg : ResolverCfg) (path mapName : String) (line : Nat) : IncResult :=
  let current := svcGetKeysForMap ps path mapName line
  let included := resolveAllIncludes fs cfg path
  let d0 := current.directKeys.foldl insertIfAbsent []
  let st := included.foldl (includeStep fs mapName)
    (d0, current.functionKeys, ps, [])
  ⟨⟨st.1, st.2.1⟩, st.2.2.1, st.2.2.2⟩

/-- Fixed-size batches of the workspace file list (`processBatch`'s
`for (let i = 0; i < files.length; i += batchSize)` slicing).  The code never
runs with batch size 0 (the configured value defaults to 10); a batch size of
0 would loop forever in the source and is modelled as producing no batches. -/
def toBatches {α : Type} : Nat → List α → List (List α)
  | _, [] => []
  | 0, _ :: _ => []
  | bs + 1, a :: as => ((a :: as).take (bs + 1)) :: toBatches (bs + 1) ((a :: as).drop (bs + 1))
termination_by _ l => l.length
decreasing_by simp [List.drop_drop]; omega

/-- `ai_workspaceSymbols.processBatch`: per-file symbol extraction
(`openTextDocument` + `provideDocumentSymbols` + flattening, modelled as the
oracle `docSyms`, `none` meaning the file could not be opened and is skipped);
results are inserted into the map batch by batch; a requested cancellation
stops before a batch. -/
def processBatch (docSyms : String → Option (List String)) (bs : Nat)
    (cancelled : Bool) (files : List String) : List (String × List String) :=
  if cancelled then []
  else
    (toBatches bs files).foldl
      (fun acc batch =>
        (batch.filterMap (fun f => (docSyms f).map (fun s => (f, s)))).foldl
          (fun m kv => mapSet m kv.1 kv.2) acc)
      []

/-- Result of `getWorkspaceSymbols`: the URI-to-symbols map and the number of
truncation warnings shown. -/
structure WsResult where
  results : List (String × List String)
  warnings : Nat
deriving DecidableEq, Repr

/-- `ai_workspaceSymbols.getWorkspaceSymbols`: enumerate matching files,
truncate to the configured maximum (with a single warning when truncating) and
process the rest in batches. -/
def getWorkspaceSymbols (docSyms : String → Option (List String))
    (maxFiles batchSize : Nat) (cancelled : Bool) (allFiles : List String) :
    WsResult :=
  let filesToProcess := allFiles.take maxFiles
  ⟨processBatch docSyms batchSize cancelled filesToProcess,
    if maxFiles < allFiles.length then 1 else 0⟩

/-- The `MapTrackingService` singleton's state: configuration plus the cached
file-parser map (the debouncing bookkeeping is timing state and is not
relevant to the singleton claims). -/
structure MTService where
  workspaceRoot : String
  autoitIncludePaths : List String
  maxIncludeDepth : Nat
  fileParsers : ParserMap

/-- The static `MapTrackingService.instance` slot. -/
def MTState : Type := Option MTService

/-- The `MapTrackingService` constructor: when an instance already exists it
is returned unchanged (the JS constructor returns the stored instance,
discarding the fresh object); otherwise the configuration is stored and an
empty parser map created. -/
def constructService (st : MTState) (root : String) (incl : List String)
    (depth : Nat) : MTService × MTState :=
  match st with
  | some i => (i, some i)
  | none =>
    let i : MTService := ⟨root, incl, depth, []⟩
    (i, some i)

/-- `MapTrackingService.getInstance`: arguments (possibly omitted) are used
only when no instance exists, with the constructor's defaults; an existing
instance is returned unchanged (at most a console warning is printed). -/
def getInstanceService (st : MTState) (root : Option String)
    (incl : Option (List String)) (depth : Option Nat) : MTService × MTState :=
  match st with
  | some i => (i, some i)
  | none => constructService none (root.getD "") (incl.getD []) (depth.getD 3)

/-- `MapTrackingService.updateConfiguration`: store the new configuration and
clear the cached parsers. -/
def updateConfigurationService (_i : MTService) (root : String)
    (incl : List String) (depth : Nat) : MTService :=
  ⟨root, incl, depth, []⟩


/-- "Distinct keys in order of first appearance" (JS `Set` iteration order). -/
def firstSeen (l : List String) : List String := l.foldl insertIfAbsent []

/-- The tree path an assignment populates: its nested chain, or the single
key for a flat assignment. -/
def effectivePath (a : Assignment) : List String :=
  match a.nested with
  | [] => [a.key]
  | l => l

/-- Follow a key path through a children map. -/
def lookupPath (ch : List (String × NKTree)) : List String → Option NKTree
  | [] => none
  | k :: rest =>
    match alookup k ch with
    | none => none
    | some t => if rest.isEmpty then some t else lookupPath t.children rest

/-- The scalar fields of a tree node (everything but the children). -/
def NKTree.scalars (t : NKTree) : String × Nat × String × Bool × Bool :=
  (t.key, t.line, t.nota, t.isLeaf, t.isDynamic)

/-- Whether a declaration is in a scope compatible with the query point, per
the branch conditions of `getKeysForMapAtLine`'s selection loop: with the
query inside a function, a declaration inside a function of the same name or a
top-level `Global` one; outside functions, a top-level declaration. -/
def compatibleDecl (fns : List FuncB) (cf : Option FuncB) (mapName : String)
    (targetLine : Nat) (d : MapDecl) : Prop :=
  sToLower d.name = sToLower mapName ∧ d.line ≤ targetLine ∧
    (match cf with
     | some cfn =>
       (∃ df, getFunctionAtLine fns d.line = some df ∧ df.name = cfn.name) ∨
         (getFunctionAtLine fns d.line = none ∧ sToLower d.scope = "global")
     | none => getFunctionAtLine fns d.line = none)

/-- The source an included file is parsed from in
`getKeysForMapWithIncludes`: the cached parser lines if the file is tracked,
else the lines of its on-disk content; `none` when it is untracked and
unreadable. -/
def availSource (ps : ParserMap) (fs : FileSys) (f : String) : Option (List String) :=
  (alookup f ps).orElse (fun _ => (fs.read f).map linesOf)

/-- An included file's contribution: its keys as if queried at its end. -/
def endResultOf (ps : ParserMap) (fs : FileSys) (f mapName : String) :
    Option KeysResult :=
  (availSource ps fs f).map fun lns => getKeysForMapAtLine lns mapName lns.length true

/-! ## Concrete fixtures for witnesses and counterexamples -/

/-- The spec's end-to-end flat-key example source. -/
def userLines : List String :=
  ["Local $mUser[]", "$mUser.name = \"John\"", "$mUser.age = 30"]

/-- The spec's end-to-end nested example source. -/
def dataLines : List String := ["$mData[\"a\"][\"b\"] = 1"]

/-- Two functions that share the name `F`: the code identifies functions by
name, so a declaration inside the first is treated as local to a query inside
the second. -/
def dupFnLines : List String :=
  ["Func F()", "Local $m[]", "EndFunc", "Func F()", "$m.b = 2", "EndFunc"]

/-- A well-formed file with distinct function names. -/
def scopedLines : List String :=
  ["Global $g[]", "Func F()", "Local $m[]", "$m.a = 1", "EndFunc"]

/-- A two-file circular include graph (the circular-include test). -/
def cycFS : FileSys :=
  ⟨fun p => p = "/ws/a.au3" || p = "/ws/b.au3",
   fun p =>
     if p = "/ws/a.au3" then some "#include \"b.au3\""
     else if p = "/ws/b.au3" then some "#include \"a.au3\"" else none⟩

/-- The four-file include chain of the max-depth test. -/
def chainFS : FileSys :=
  ⟨fun p => p = "/ws/level1.au3" || p = "/ws/level2.au3" ||
      p = "/ws/level3.au3" || p = "/ws/level4.au3",
   fun p =>
     if p = "/ws/level1.au3" then some "#include \"level2.au3\""
     else if p = "/ws/level2.au3" then some "#include \"level3.au3\""
     else if p = "/ws/level3.au3" then some "#include \"level4.au3\""
     else if p = "/ws/level4.au3" then some "" else none⟩

/-- A document-symbol oracle for the workspace-symbol witness. -/
def wsDocSyms : String → Option (List String) := fun f => some [f ++ ":sym"]

/-! ## Helper lemmas -/

theorem readBrGroup_length {cs rest : List Char} {k : String}
    (h : readBrGroup cs = some (k, rest)) : rest.length < cs.length := by
  unfold readBrGroup at h
  split at h
  · rename_i c cs'
    split at h
    · split at h
      · exact absurd h (by simp)
      · split at h
        · rename_i q rest' hdw
          split at h
          · have hsub : (cs'.dropWhile notQuote).Sublist cs' := List.dropWhile_sublist _
            have hlen : (cs'.dropWhile notQuote).length ≤ cs'.length := hsub.length_le
            rw [hdw] at hlen
            simp only [List.length_cons] at hlen
            have hr : rest = rest' := by
              simp only [Option.some.injEq, Prod.mk.injEq] at h
              exact h.2.symm
            subst hr
            simp only [List.length_cons]
            omega
          · exact absurd h (by simp)
        · exact absurd h (by simp)
    · exact absurd h (by simp)
  · exact absurd h (by simp)

theorem readBrGroupsF_eq_of_le :
    ∀ {fuel fuel2 : Nat} {cs : List Char}, cs.length ≤ fuel → cs.length ≤ fuel2 →
      readBrGroupsF fuel cs = readBrGroupsF fuel2 cs := by
  intro fuel
  induction fuel with
  | zero =>
    intro fuel2 cs h1 _
    have hcs : cs = [] := List.length_eq_zero.mp (Nat.le_zero.mp h1)
    subst hcs
    cases fuel2 with
    | zero => rfl
    | succ f2 => simp [readBrGroupsF, readBrGroup]
  | succ f ih =>
    intro fuel2 cs h1 h2
    cases fuel2 with
    | zero =>
      have hcs : cs = [] := List.length_eq_zero.mp (Nat.le_zero.mp h2)
      subst hcs
      simp [readBrGroupsF, readBrGroup]
    | succ f2 =>
      simp only [readBrGroupsF]
      cases hg : readBrGroup cs with
      | none => rfl
      | some kr =>
        have hlt : kr.2.length < cs.length := readBrGroup_length (by
          rw [hg])
        have e : readBrGroupsF f kr.2 = readBrGroupsF f2 kr.2 :=
          ih (by omega) (by omega)
        simp [e]

/-- Inside one depth level of `dfsE`, the final visited list is the emitted
files (reversed) on top of the initial visited list. -/
theorem dfsE_foldl_ex (fs : FileSys) (cfg : ResolverCfg) (n : Nat)
    (IH : ∀ cs vis, (dfsE fs cfg n cs vis).2 = (dfsE fs cfg n cs vis).1.reverse ++ vis) :
    ∀ (cs : List String) (acc vis : List String),
      ∃ l, cs.foldl
          (fun st c =>
            if c ∈ st.2 then st
            else
              let sub := dfsE fs cfg n (childPaths fs cfg c) (c :: st.2)
              (st.1 ++ c :: sub.1, sub.2)) (acc, vis) = (acc ++ l, l.reverse ++ vis) := by
  intro cs
  induction cs with
  | nil => intro acc vis; exact ⟨[], by simp⟩
  | cons c cs' ih =>
    intro acc vis
    simp only [List.foldl_cons]
    by_cases hc : c ∈ vis
    · simp only [hc, if_true]
      exact ih acc vis
    · simp only [hc, if_false]
      have hsub := IH (childPaths fs cfg c) (c :: vis)
      rcases ih (acc ++ c :: (dfsE fs cfg n (childPaths fs cfg c) (c :: vis)).1)
          (dfsE fs cfg n (childPaths fs cfg c) (c :: vis)).2 with ⟨l', hl'⟩
      refine ⟨c :: (dfsE fs cfg n (childPaths fs cfg c) (c :: vis)).1 ++ l', ?_⟩
      rw [hl', hsub]
      refine Prod.ext ?_ ?_ <;> simp

/-- The visited set of `dfsE` equals the emitted files (reversed) on top of
the initial visited set. -/
theorem dfsE_vis (fs : FileSys) (cfg : ResolverCfg) :
    ∀ (n : Nat) (cs vis : List String),
      (dfsE fs cfg n cs vis).2 = (dfsE fs cfg n cs vis).1.reverse ++ vis := by
  intro n
  induction n with
  | zero => intro cs vis; simp [dfsE]
  | succ n ih =>
    intro cs vis
    rcases dfsE_foldl_ex fs cfg n ih cs [] vis with ⟨l, hl⟩
    simp only [dfsE, hl]
    simp

/-- `dfsE` preserves distinctness of the visited list. -/
theorem dfsE_nodup (fs : FileSys) (cfg : ResolverCfg) :
    ∀ (n : Nat) (cs vis : List String), vis.Nodup → (dfsE fs cfg n cs vis).2.Nodup := by
  intro n
  induction n with
  | zero => intro cs vis h; simpa [dfsE] using h
  | succ n ih =>
    intro cs vis h
    simp only [dfsE]
    suffices haux : ∀ (cs' : List String) (acc : List String) (vis' : List String),
        vis'.Nodup →
        ((cs'.foldl
          (fun st c =>
            if c ∈ st.2 then st
            else
              let sub := dfsE fs cfg n (childPaths fs cfg c) (c :: st.2)
              (st.1 ++ c :: sub.1, sub.2)) (acc, vis')).2).Nodup by
      exact haux cs [] vis h
    intro cs'
    induction cs' with
    | nil => intro acc vis' h'; simpa using h'
    | cons c cs'' ihc =>
      intro acc vis' h'
      simp only [List.foldl_cons]
      by_cases hc : c ∈ vis'
      · simp only [hc, if_true]
        exact ihc acc vis' h'
      · simp only [hc, if_false]
        exact ihc _ _ (ih (childPaths fs cfg c) (c :: vis') (by simp [h', hc]))

/-- The include closure has no duplicates and excludes the entry file. -/
theorem resolveAllIncludes_nodup (fs : FileSys) (cfg : ResolverCfg) (entry : String) :
    (resolveAllIncludes fs cfg entry).Nodup ∧ entry ∉ resolveAllIncludes fs cfg entry := by
  have hvis := dfsE_vis fs cfg cfg.maxDepth (childPaths fs cfg entry) [entry]
  have hnd := dfsE_nodup fs cfg cfg.maxDepth (childPaths fs cfg entry) [entry]
    (List.nodup_singleton entry)
  rw [hvis] at hnd
  rw [List.nodup_append] at hnd
  refine ⟨List.nodup_reverse.mp hnd.1, fun hmem => ?_⟩
  exact hnd.2.2 (List.mem_reverse.mpr hmem) (List.mem_singleton_self entry)

/-! ## Claim theorems -/

/-- C5: for every include graph, `resolveAllIncludes` on an entry file
terminates even when the include directives form a cycle (the function below
is total by construction, so every query returns), cycles being broken by the
visited set of resolved absolute paths; every file appears at most once in the
returned list and the entry file never does.  Concretely, on the two-file
cycle A↔B the closure of A is exactly `[B]`. -/
theorem C5_include_cycle_termination :
    (∀ (fs : FileSys) (cfg : ResolverCfg) (entry : String),
        (resolveAllIncludes fs cfg entry).Nodup ∧
          entry ∉ resolveAllIncludes fs cfg entry) ∧
      resolveAllIncludes cycFS ⟨[], 3⟩ "/ws/a.au3" = ["/ws/b.au3"] :=
  ⟨fun fs cfg entry => resolveAllIncludes_nodup fs cfg entry, by decide⟩

/-- C6: `resolveAllIncludes` is bounded by the configured maximum depth: on
the chain level1→level2→level3→level4 with maximum depth 2 the result is
exactly level2 and level3 — the entry file is excluded, level3 (at the depth
boundary) is included, and its own include level4 is not expanded. -/
theorem C6_include_max_depth :
    resolveAllIncludes chainFS ⟨[], 2⟩ "/ws/level1.au3" =
        ["/ws/level2.au3", "/ws/level3.au3"] ∧
      "/ws/level4.au3" ∉ resolveAllIncludes chainFS ⟨[], 2⟩ "/ws/level1.au3" ∧
      "/ws/level1.au3" ∉ resolveAllIncludes chainFS ⟨[], 2⟩ "/ws/level1.au3" := by
  refine ⟨by decide, by decide, by decide⟩

/-- A declaration in no compatible scope never changes the running closest
declaration of the selection loop. -/
theorem declStep_of_not_compatible (fns : List FuncB) (cf : Option FuncB)
    (mapName : String) (L : Nat) (cur : Option MapDecl) (d : MapDecl)
    (h : ¬ compatibleDecl fns cf mapName L d) :
    declStep fns cf mapName L cur d = cur := by
  unfold declStep
  by_cases h1 : sToLower d.name ≠ sToLower mapName
  · simp [h1]
  · simp only [h1, if_false]
    by_cases h2 : L < d.line
    · simp [h2]
    · simp only [h2, if_false]
      have hle : d.line ≤ L := Nat.le_of_not_lt h2
      have hname : sToLower d.name = sToLower mapName := not_not.mp h1
      cases hcf : cf with
      | some cfn =>
        cases hdf : getFunctionAtLine fns d.line with
        | some df =>
          by_cases h3 : df.name = cfn.name
          · exact absurd ⟨hname, hle, by rw [hcf]; exact Or.inl ⟨df, hdf, h3⟩⟩ h
          · simp [h3]
        | none =>
          by_cases h4 : sToLower d.scope = "global"
          · exact absurd ⟨hname, hle, by rw [hcf]; exact Or.inr ⟨hdf, h4⟩⟩ h
          · simp [h4]
      | none =>
        cases hdf : getFunctionAtLine fns d.line with
        | some df => simp
        | none => exact absurd ⟨hname, hle, by rw [hcf]; exact hdf⟩ h

/-- When no declaration is compatible, the selection loop ends with none. -/
theorem closestDeclFor_none (lines : List String) (mapName : String) (L : Nat)
    (h : ∀ d ∈ parseMapDeclarations lines,
        ¬ compatibleDecl (parseFunctionBoundaries lines)
          (getFunctionAtLine (parseFunctionBoundaries lines) L) mapName L d) :
    closestDeclFor lines mapName L = none := by
  unfold closestDeclFor
  suffices haux : ∀ (l : List MapDecl) (init : Option MapDecl),
      (∀ d ∈ l, ¬ compatibleDecl (parseFunctionBoundaries lines)
          (getFunctionAtLine (parseFunctionBoundaries lines) L) mapName L d) →
      l.foldl (declStep (parseFunctionBoundaries lines)
        (getFunctionAtLine (parseFunctionBoundaries lines) L) mapName L) init = init by
    exact haux _ none h
  intro l
  induction l with
  | nil => intro init _; rfl
  | cons d l' ih =>
    intro init hall
    simp only [List.foldl_cons]
    rw [declStep_of_not_compatible _ _ _ _ _ _ (hall d (List.mem_cons_self d l'))]
    exact ih init (fun d' hd' => hall d' (List.mem_cons_of_mem d hd'))

/-- C8: for every source text, container name and query line, if no
declaration of that name at or before the query line lies in a compatible
scope, `getKeysForMapAtLine` returns empty `directKeys` and `functionKeys`
buckets (the embedded function is total, so no error is ever raised). -/
theorem C8_no_declaration_empty :
    ∀ (lines : List String) (mapName : String) (L : Nat),
      (∀ d ∈ parseMapDeclarations lines,
          ¬ compatibleDecl (parseFunctionBoundaries lines)
            (getFunctionAtLine (parseFunctionBoundaries lines) L) mapName L d) →
      getKeysForMapAtLine lines mapName L true = ⟨[], []⟩ := by
  intro lines mapName L h
  unfold getKeysForMapAtLine
  rw [closestDeclFor_none lines mapName L h]

/-- C8 witness: a file with an assignment but no declaration yields empty
buckets. -/
theorem C8_no_declaration_empty_witness :
    (∀ d ∈ parseMapDeclarations ["$m.a = 1"],
        ¬ compatibleDecl (parseFunctionBoundaries ["$m.a = 1"])
          (getFunctionAtLine (parseFunctionBoundaries ["$m.a = 1"]) 1) "$m" 1 d) ∧
      getKeysForMapAtLine ["$m.a = 1"] "$m" 1 true = ⟨[], []⟩ := by
  have hdecls : parseMapDeclarations ["$m.a = 1"] = [] := by decide
  have hall : ∀ d ∈ parseMapDeclarations ["$m.a = 1"],
      ¬ compatibleDecl (parseFunctionBoundaries ["$m.a = 1"])
        (getFunctionAtLine (parseFunctionBoundaries ["$m.a = 1"]) 1) "$m" 1 d := by
    intro d hd
    rw [hdecls] at hd
    exact absurd hd (List.not_mem_nil d)
  exact ⟨hall, C8_no_declaration_empty ["$m.a = 1"] "$m" 1 hall⟩

/-- With a positive batch size, the batches concatenate back to the file
list. -/
theorem toBatches_flatten {α : Type} (bs : Nat) :
    ∀ (n : Nat) (l : List α), l.length ≤ n → (toBatches (bs + 1) l).flatten = l := by
  intro n
  induction n with
  | zero =>
    intro l hl
    have : l = [] := List.length_eq_zero.mp (Nat.le_zero.mp hl)
    subst this
    simp [toBatches]
  | succ n ih =>
    intro l hl
    cases l with
    | nil => simp [toBatches]
    | cons a as =>
      have hdrop : ((a :: as).drop (bs + 1)).length ≤ n := by
        simp only [List.length_drop, List.length_cons]
        simp only [List.length_cons] at hl
        omega
      simp only [toBatches, List.flatten_cons, ih _ hdrop]
      exact List.take_append_drop (bs + 1) (a :: as)

/-- Folding the per-file insertion over each batch in turn is folding it over
the whole file list. -/
theorem batches_foldl {α β : Type} (g : α → Option β)
    (step : List (α × β) → α × β → List (α × β)) :
    ∀ (batches : List (List α)) (acc : List (α × β)),
      batches.foldl (fun m batch => (batch.filterMap (fun f => (g f).map (fun s => (f, s)))).foldl step m) acc =
        (batches.flatten.filterMap (fun f => (g f).map (fun s => (f, s)))).foldl step acc := by
  intro batches
  induction batches with
  | nil => intro acc; rfl
  | cons b bs ih =>
    intro acc
    simp only [List.foldl_cons, List.flatten_cons, List.filterMap_append,
      List.foldl_append, ih]

/-- `Map.set` on an absent key appends the entry. -/
theorem mapSet_of_not_mem {β : Type} :
    ∀ (m : List (String × β)) (k : String) (v : β), k ∉ m.map Prod.fst →
      mapSet m k v = m ++ [(k, v)] := by
  intro m
  induction m with
  | nil => intro k v _; rfl
  | cons kv m' ih =>
    intro k v hk
    simp only [List.map_cons, List.mem_cons] at hk
    push_neg at hk
    simp only [mapSet, if_neg (Ne.symm hk.1), List.cons_append]
    rw [ih k v hk.2]

/-- Building the result map from files with fresh, distinct keys that all
open successfully records exactly those files, in order. -/
theorem foldl_mapSet_keys {β : Type} (g : String → Option β) :
    ∀ (files : List String) (acc : List (String × β)),
      files.Nodup → (∀ f ∈ files, f ∉ acc.map Prod.fst) →
      (∀ f ∈ files, (g f).isSome) →
      ((files.filterMap (fun f => (g f).map (fun s => (f, s)))).foldl
          (fun m kv => mapSet m kv.1 kv.2) acc).map Prod.fst =
        acc.map Prod.fst ++ files := by
  intro files
  induction files with
  | nil => intro acc _ _ _; simp
  | cons f fs' ih =>
    intro acc hnd hfresh hsome
    have hf : (g f).isSome := hsome f (List.mem_cons_self f fs')
    rcases Option.isSome_iff_exists.mp hf with ⟨s, hs⟩
    simp only [List.filterMap_cons, hs, Option.map_some', List.foldl_cons]
    rw [mapSet_of_not_mem acc f s (hfresh f (List.mem_cons_self f fs'))]
    have hnd' : fs'.Nodup := (List.nodup_cons.mp hnd).2
    have hfnotin : f ∉ fs' := (List.nodup_cons.mp hnd).1
    have hfresh' : ∀ x ∈ fs', x ∉ (acc ++ [(f, s)]).map Prod.fst := by
      intro x hx
      simp only [List.map_append, List.mem_append, List.map_cons, List.map_nil,
        List.mem_singleton]
      push_neg
      exact ⟨hfresh x (List.mem_cons_of_mem f hx),
        fun he => hfnotin (he ▸ hx)⟩
    have hsome' : ∀ x ∈ fs', (g x).isSome :=
      fun x hx => hsome x (List.mem_cons_of_mem f hx)
    rw [ih (acc ++ [(f, s)]) hnd' hfresh' hsome']
    simp

/-- C9: workspace-symbol batch processing over `N` matching files with a
configured maximum `M < N` processes and returns symbols for exactly the
first `M` files (in order) and triggers exactly one truncation warning. -/
theorem C9_workspace_symbol_truncation :
    ∀ (docSyms : String → Option (List String)) (M bs : Nat)
      (allFiles : List String),
      M < allFiles.length → 1 ≤ bs → (allFiles.take M).Nodup →
      (∀ f ∈ allFiles.take M, (docSyms f).isSome) →
      ((getWorkspaceSymbols docSyms M bs false allFiles).results.map Prod.fst =
          allFiles.take M) ∧
        (getWorkspaceSymbols docSyms M bs false allFiles).warnings = 1 := by
  intro docSyms M bs allFiles hM hbs hnd hsome
  rcases Nat.exists_eq_add_of_le hbs with ⟨b, hb⟩
  have hbseq : bs = b + 1 := by omega
  subst hbseq
  constructor
  · show ((processBatch docSyms (b + 1) false (allFiles.take M)).map Prod.fst =
      allFiles.take M)
    unfold processBatch
    simp only [Bool.false_eq_true, if_false]
    rw [batches_foldl docSyms]
    rw [toBatches_flatten b (allFiles.take M).length (allFiles.take M) (Nat.le_refl _)]
    have := foldl_mapSet_keys docSyms (allFiles.take M) [] hnd
      (by intro f _; simp) hsome
    simpa using this
  · show (if M < allFiles.length then 1 else 0) = 1
    simp [hM]

/-- C9 witness: three files, maximum two, batch size one. -/
theorem C9_workspace_symbol_truncation_witness :
    2 < (["f1", "f2", "f3"] : List String).length ∧
      ((getWorkspaceSymbols wsDocSyms 2 1 false ["f1", "f2", "f3"]).results.map
          Prod.fst = ["f1", "f2", "f3"].take 2) ∧
      (getWorkspaceSymbols wsDocSyms 2 1 false ["f1", "f2", "f3"]).warnings = 1 := by
  have h := C9_workspace_symbol_truncation wsDocSyms 2 1 ["f1", "f2", "f3"]
    (by decide) (by decide) (by decide) (by intro f _; rfl)
  exact ⟨by decide, h.1, h.2⟩

/-- Every assignment a line emits carries that line's index. -/
theorem lineAssign_mem_line (name : String) (idx : Nat) (line : String) :
    ∀ a ∈ lineAssign name idx line, a.line = idx := by
  intro a ha
  unfold lineAssign at ha
  split at ha
  · exact absurd ha (List.not_mem_nil a)
  · split at ha
    · rcases List.mem_singleton.mp ha with rfl; rfl
    · split at ha
      · rcases List.mem_map.mp ha with ⟨dk, _, rfl⟩; rfl
      · split at ha
        · rcases List.mem_singleton.mp ha with rfl; rfl
        · split at ha
          · rcases List.mem_singleton.mp ha with rfl; rfl
          · exact absurd ha (List.not_mem_nil a)

/-- Assignments emitted from lines numbered from `m` onwards have line at
least `m`. -/
theorem enumFrom_flatMap_line_ge (name : String) :
    ∀ (ls : List String) (m : Nat) (a : Assignment),
      a ∈ (enumFrom m ls).flatMap (fun il => lineAssign name il.1 il.2) →
      m ≤ a.line := by
  intro ls
  induction ls with
  | nil => intro m a ha; exact absurd ha (List.not_mem_nil a)
  | cons l ls' ih =>
    intro m a ha
    simp only [enumFrom, List.flatMap_cons, List.mem_append] at ha
    rcases ha with ha | ha
    · exact (lineAssign_mem_line name m l a ha).ge
    · exact Nat.le_of_succ_le (ih (m + 1) a ha)

/-- The assignments of the whole text carrying line number `i` are exactly
what the per-line scan emits for line `i`. -/
theorem parseKeyAssignments_filter_line (name : String) :
    ∀ (ls : List String) (n i : Nat) (li : String),
      ls.get? i = some li →
      ((enumFrom n ls).flatMap (fun il => lineAssign name il.1 il.2)).filter
          (fun a => decide (a.line = n + i)) =
        lineAssign name (n + i) li := by
  intro ls
  induction ls with
  | nil => intro n i li h; simp at h
  | cons l ls' ih =>
    intro n i li h
    cases i with
    | zero =>
      simp only [List.get?] at h
      have hli : l = li := Option.some.inj h
      subst hli
      simp only [enumFrom, List.flatMap_cons, List.filter_append, Nat.add_zero]
      have h1 : (lineAssign name n l).filter (fun a => decide (a.line = n)) =
          lineAssign name n l := by
        apply List.filter_eq_self.mpr
        intro a ha
        simp [lineAssign_mem_line name n l a ha]
      have h2 : ((enumFrom (n + 1) ls').flatMap
          (fun il => lineAssign name il.1 il.2)).filter
            (fun a => decide (a.line = n)) = [] := by
        apply List.filter_eq_nil.mpr
        intro a ha
        have := enumFrom_flatMap_line_ge name ls' (n + 1) a ha
        simp only [decide_eq_true_eq]
        omega
      rw [h1, h2, List.append_nil]
    | succ j =>
      simp only [List.get?] at h
      simp only [enumFrom, List.flatMap_cons, List.filter_append]
      have h1 : (lineAssign name n l).filter
          (fun a => decide (a.line = n + (j + 1))) = [] := by
        apply List.filter_eq_nil.mpr
        intro a ha
        have := lineAssign_mem_line name n l a ha
        simp only [decide_eq_true_eq]
        omega
      have h2 := ih (n + 1) j li h
      have harith : n + 1 + j = n + (j + 1) := by omega
      rw [harith] at h2
      rw [h1, h2, List.nil_append]

/-- C3: per line, `parseKeyAssignments` tries the patterns in priority order —
(1) a nested bracket chain of at least two quoted keys emits one assignment
carrying the full chain; (2) otherwise a dynamic bracket reference emits one
assignment per reference found; (3) otherwise dot notation; (4) otherwise
single-bracket notation — the first matching pattern wins for the line, and
the assignments of the text carrying a given line number are exactly that
line's emission, so no line produces both a nested-chain assignment and a
flat one. -/
theorem C3_assignment_pattern_priority :
    ∀ (lines : List String) (name : String) (i : Nat) (li : String),
      lines.get? i = some li → ¬ isCommentLine li →
      ((parseKeyAssignments lines name).filter (fun a => decide (a.line = i)) =
          lineAssign name i li) ∧
        (∀ k ks, parseNestedKeyStructure li name = k :: ks →
          lineAssign name i li = [⟨k, i, "bracket", k :: ks, false⟩]) ∧
        (∀ d ds, parseNestedKeyStructure li name = [] →
          parseDynamicKeysFromLine li name = d :: ds →
          lineAssign name i li =
            (d :: ds).map fun dk => ⟨dk, i, "bracket", [], true⟩) ∧
        (∀ k, parseNestedKeyStructure li name = [] →
          parseDynamicKeysFromLine li name = [] → matchDot name li = some k →
          lineAssign name i li = [⟨k, i, "dot", [], false⟩]) ∧
        (∀ k, parseNestedKeyStructure li name = [] →
          parseDynamicKeysFromLine li name = [] → matchDot name li = none →
          matchBracketKey name li = some k →
          lineAssign name i li = [⟨k, i, "bracket", [], false⟩]) ∧
        ¬ ((∃ a ∈ lineAssign name i li, a.nested ≠ []) ∧
            ∃ b ∈ lineAssign name i li, b.nested = []) := by
  intro lines name i li hget hcmt
  have hfilter := parseKeyAssignments_filter_line name lines 0 i li hget
  simp only [Nat.zero_add] at hfilter
  refine ⟨hfilter, ?_, ?_, ?_, ?_, ?_⟩
  · intro k ks hn
    simp [lineAssign, hcmt, hn]
  · intro d ds hn hd
    simp [lineAssign, hcmt, hn, hd]
  · intro k hn hd hdot
    simp [lineAssign, hcmt, hn, hd, hdot]
  · intro k hn hd hdot hbr
    simp [lineAssign, hcmt, hn, hd, hdot, hbr]
  · rintro ⟨⟨a, ha, han⟩, ⟨b, hb, hbn⟩⟩
    cases hn : parseNestedKeyStructure li name with
    | cons k ks =>
      have hl : lineAssign name i li = [⟨k, i, "bracket", k :: ks, false⟩] := by
        simp [lineAssign, hcmt, hn]
      rw [hl] at hb
      rcases List.mem_singleton.mp hb with rfl
      simp at hbn
    | nil =>
      have hflat : ∀ x ∈ lineAssign name i li, x.nested = ([] : List String) := by
        intro x hx
        unfold lineAssign at hx
        rw [if_neg hcmt] at hx
        simp only [hn] at hx
        split at hx
        · rcases List.mem_map.mp hx with ⟨dk, _, rfl⟩; rfl
        · split at hx
          · rcases List.mem_singleton.mp hx with rfl; rfl
          · split at hx
            · rcases List.mem_singleton.mp hx with rfl; rfl
            · exact absurd hx (List.not_mem_nil x)
      exact han (hflat a ha)

/-- C3 witness: the nested line emits exactly one assignment carrying the
full chain, and the text-level assignments at line 0 coincide with it. -/
theorem C3_assignment_pattern_priority_witness :
    dataLines.get? 0 = some "$mData[\"a\"][\"b\"] = 1" ∧
      ¬ isCommentLine "$mData[\"a\"][\"b\"] = 1" ∧
      (parseKeyAssignments dataLines "$mData").filter
          (fun a => decide (a.line = 0)) =
        lineAssign "$mData" 0 "$mData[\"a\"][\"b\"] = 1" ∧
      lineAssign "$mData" 0 "$mData[\"a\"][\"b\"] = 1" =
        [⟨"a", 0, "bracket", ["a", "b"], false⟩] := by
  have hget : dataLines.get? 0 = some "$mData[\"a\"][\"b\"] = 1" := rfl
  have hcmt : ¬ isCommentLine "$mData[\"a\"][\"b\"] = 1" := by decide
  have h := C3_assignment_pattern_priority dataLines "$mData" 0
    "$mData[\"a\"][\"b\"] = 1" hget hcmt
  refine ⟨hget, hcmt, h.1, h.2.1 "a" ["b"] (by decide)⟩

/-- Lookup after a position-preserving children update. -/
theorem alookup_updateChild (k k' : String) (t : NKTree) :
    ∀ (ch : List (String × NKTree)),
      alookup k' (updateChild ch k t) =
        if k' = k then (alookup k ch).map (fun _ => t) else alookup k' ch := by
  intro ch
  induction ch with
  | nil => by_cases h : k' = k <;> simp [updateChild, alookup, h]
  | cons kv ch' ih =>
    rcases kv with ⟨k1, v1⟩
    simp only [updateChild, List.map_cons] at ih ⊢
    by_cases h1 : k1 = k
    · subst h1
      simp only [if_pos rfl]
      by_cases h2 : k' = k1
      · subst h2
        simp [alookup]
      · have h2' : ¬ k1 = k' := fun he => h2 he.symm
        simp [alookup, h2, h2', ih]
    · simp only [if_neg h1]
      by_cases h2 : k1 = k'
      · subst h2
        simp [alookup, h1]
      · simp [alookup, h1, h2, ih]

/-- Lookup after appending a single entry. -/
theorem alookup_append_single (k k0 : String) (t0 : NKTree) :
    ∀ (ch : List (String × NKTree)),
      alookup k (ch ++ [(k0, t0)]) =
        match alookup k ch with
        | some v => some v
        | none => if k = k0 then some t0 else none := by
  intro ch
  induction ch with
  | nil =>
    by_cases h : k = k0
    · simp [alookup, h]
    · have h' : ¬ k0 = k := fun he => h he.symm
      simp [alookup, h, h']
  | cons kv ch' ih =>
    rcases kv with ⟨k1, v1⟩
    by_cases h : k1 = k
    · simp [alookup, h]
    · simp only [List.cons_append]
      simp [alookup, h, ih]

/-- Walking a chain never changes the scalar fields of an existing node on
any path (the first-seen node is retained). -/
theorem insertChain_pres (line : Nat) (nota : String) :
    ∀ (p : List String) (chain : List String) (ch : List (String × NKTree)) (t : NKTree),
      lookupPath ch p = some t →
      ∃ t', lookupPath (insertChain line nota chain ch) p = some t' ∧
        t'.scalars = t.scalars := by
  intro p
  induction p with
  | nil => intro chain ch t h; simp [lookupPath] at h
  | cons k' p' ih =>
    intro chain ch t h
    simp only [lookupPath] at h
    rcases hck' : alookup k' ch with _ | t1
    · rw [hck'] at h; exact absurd h (by simp)
    · rw [hck'] at h
      have h2 : (if p'.isEmpty = true then some t1 else lookupPath t1.children p') =
          some t := h
      cases chain with
      | nil =>
        refine ⟨t, ?_, rfl⟩
        simp only [insertChain, lookupPath, hck']
        exact h2
      | cons k rest =>
        rcases hck : alookup k ch with _ | t0
        · refine ⟨t, ?_, rfl⟩
          simp only [insertChain, hck]
          simp only [lookupPath, alookup_append_single, hck']
          exact h2
        · simp only [insertChain, hck]
          by_cases hkk : k' = k
          · subst hkk
            have ht1 : t1 = t0 := by rw [hck'] at hck; exact Option.some.inj hck
            subst ht1
            by_cases hpe : p'.isEmpty
            · have ht : t = t1 := by
                rw [if_pos hpe] at h2; exact (Option.some.inj h2).symm
              subst ht
              refine ⟨NKTree.node t.key t.line t.nota t.isLeaf t.isDynamic
                (insertChain line nota rest t.children), ?_, rfl⟩
              simp [lookupPath, alookup_updateChild, hck, hpe]
            · rw [if_neg hpe] at h2
              rcases ih rest t1.children t h2 with ⟨t', ht', hsc⟩
              refine ⟨t', ?_, hsc⟩
              have hlu : alookup k' (updateChild ch k' (NKTree.node t1.key t1.line
                  t1.nota t1.isLeaf t1.isDynamic
                  (insertChain line nota rest t1.children))) =
                  some (NKTree.node t1.key t1.line t1.nota t1.isLeaf t1.isDynamic
                    (insertChain line nota rest t1.children)) := by
                rw [alookup_updateChild]
                simp [hck]
              simp only [lookupPath, hlu, if_neg hpe]
              exact ht'
          · refine ⟨t, ?_, rfl⟩
            simp only [lookupPath, alookup_updateChild, if_neg hkk, hck']
            exact h2

/-- Walking a chain creates exactly the nodes on the chain's prefixes, with
the assignment's line and with `isLeaf` exactly on the full chain. -/
theorem insertChain_new (line : Nat) (nota : String) :
    ∀ (p : List String) (chain : List String) (ch : List (String × NKTree)),
      p ≠ [] → lookupPath ch p = none →
      (p.isPrefixOf chain = true →
          ∃ t', lookupPath (insertChain line nota chain ch) p = some t' ∧
            t'.line = line ∧ t'.isLeaf = (p == chain)) ∧
        (p.isPrefixOf chain = false →
          lookupPath (insertChain line nota chain ch) p = none) := by
  intro p
  induction p with
  | nil => intro chain ch hp _; exact absurd rfl hp
  | cons k' p' ih =>
    intro chain ch _ h
    simp only [lookupPath] at h
    cases chain with
    | nil =>
      constructor
      · intro hpre; simp [List.isPrefixOf] at hpre
      · intro _
        simp only [insertChain, lookupPath]
        exact h
    | cons k rest =>
      have hpre_eq : (k' :: p').isPrefixOf (k :: rest) =
          ((k' == k) && p'.isPrefixOf rest) := by
        simp [List.isPrefixOf]
      have hbeq_eq : ((k' :: p') == (k :: rest)) = ((k' == k) && (p' == rest)) := by
        rfl
      rcases hck : alookup k ch with _ | t0
      · simp only [insertChain, hck]
        rcases hck' : alookup k' ch with _ | t1
        · by_cases hkk : k' = k
          · subst hkk
            have hlap : alookup k' (ch ++ [(k', NKTree.node k' line nota
                rest.isEmpty false (insertChain line nota rest []))]) =
                some (NKTree.node k' line nota rest.isEmpty false
                  (insertChain line nota rest [])) := by
              rw [alookup_append_single]
              simp [hck']
            by_cases hpe : p'.isEmpty
            · have hp' : p' = [] := by
                cases p' with
                | nil => rfl
                | cons a as => simp [List.isEmpty] at hpe
              subst hp'
              constructor
              · intro _
                refine ⟨NKTree.node k' line nota rest.isEmpty false
                    (insertChain line nota rest []), ?_, rfl, ?_⟩
                · simp [lookupPath, hlap]
                · rw [hbeq_eq]
                  cases rest with
                  | nil => simp [NKTree.isLeaf, List.isEmpty]
                  | cons r rs => simp [NKTree.isLeaf, List.isEmpty]
              · intro hpre
                rw [hpre_eq] at hpre
                simp at hpre
            · have hp' : p' ≠ [] := by
                cases p' with
                | nil => simp [List.isEmpty] at hpe
                | cons a as => simp
              have hnone : lookupPath ([] : List (String × NKTree)) p' = none := by
                cases p' with
                | nil => rfl
                | cons a as => simp [lookupPath, alookup]
              rcases ih rest [] hp' hnone with ⟨ihy, ihn⟩
              constructor
              · intro hpre
                rw [hpre_eq] at hpre
                simp only [beq_self_eq_true, Bool.true_and] at hpre
                rcases ihy hpre with ⟨t', ht', hl, hleaf⟩
                refine ⟨t', ?_, hl, ?_⟩
                · simp only [lookupPath, hlap, if_neg hpe]
                  exact ht'
                · rw [hbeq_eq]
                  simp [hleaf]
              · intro hpre
                rw [hpre_eq] at hpre
                simp only [beq_self_eq_true, Bool.true_and] at hpre
                simp only [lookupPath, hlap, if_neg hpe]
                exact ihn hpre
          · have hlap : alookup k' (ch ++ [(k, NKTree.node k line nota
                rest.isEmpty false (insertChain line nota rest []))]) = none := by
              rw [alookup_append_single]
              simp [hck', hkk]
            constructor
            · intro hpre
              rw [hpre_eq] at hpre
              simp only [Bool.and_eq_true, beq_iff_eq] at hpre
              exact absurd hpre.1 hkk
            · intro _
              simp [lookupPath, hlap]
        · have hkk : ¬ k' = k := by
            intro he
            rw [he, hck] at hck'
            exact absurd hck' (by simp)
          have hlap : alookup k' (ch ++ [(k, NKTree.node k line nota
              rest.isEmpty false (insertChain line nota rest []))]) = some t1 := by
            rw [alookup_append_single]
            simp [hck']
          rw [hck'] at h
          have h2 : (if p'.isEmpty = true then some t1 else
              lookupPath t1.children p') = none := h
          constructor
          · intro hpre
            rw [hpre_eq] at hpre
            simp only [Bool.and_eq_true, beq_iff_eq] at hpre
            exact absurd hpre.1 hkk
          · intro _
            simp only [lookupPath, hlap]
            exact h2
      · simp only [insertChain, hck]
        by_cases hkk : k' = k
        · subst hkk
          rw [hck] at h
          have h2 : (if p'.isEmpty = true then some t0 else
              lookupPath t0.children p') = none := h
          have hpe : ¬ p'.isEmpty := by
            intro hpe
            rw [if_pos hpe] at h2
            exact absurd h2 (by simp)
          rw [if_neg hpe] at h2
          have hp' : p' ≠ [] := by
            cases p' with
            | nil => simp [List.isEmpty] at hpe
            | cons a as => simp
          rcases ih rest t0.children hp' h2 with ⟨ihy, ihn⟩
          have hlu : alookup k' (updateChild ch k' (NKTree.node t0.key t0.line
              t0.nota t0.isLeaf t0.isDynamic
              (insertChain line nota rest t0.children))) =
              some (NKTree.node t0.key t0.line t0.nota t0.isLeaf t0.isDynamic
                (insertChain line nota rest t0.children)) := by
            rw [alookup_updateChild]
            simp [hck]
          constructor
          · intro hpre
            rw [hpre_eq] at hpre
            simp only [beq_self_eq_true, Bool.true_and] at hpre
            rcases ihy hpre with ⟨t', ht', hl, hleaf⟩
            refine ⟨t', ?_, hl, ?_⟩
            · simp only [lookupPath, hlu, if_neg hpe]
              exact ht'
            · rw [hbeq_eq]
              simp [hleaf]
          · intro hpre
            rw [hpre_eq] at hpre
            simp only [beq_self_eq_true, Bool.true_and] at hpre
            simp only [lookupPath, hlu, if_neg hpe]
            exact ihn hpre
        · have hlu : alookup k' (updateChild ch k (NKTree.node t0.key t0.line
              t0.nota t0.isLeaf t0.isDynamic
              (insertChain line nota rest t0.children))) = alookup k' ch := by
            rw [alookup_updateChild]
            simp [hkk]
          constructor
          · intro hpre
            rw [hpre_eq] at hpre
            simp only [Bool.and_eq_true, beq_iff_eq] at hpre
            exact absurd hpre.1 hkk
          · intro _
            simp only [lookupPath, hlu]
            rcases hck' : alookup k' ch with _ | t1
            · rfl
            · rw [hck'] at h
              exact h


theorem scalars_line {t t' : NKTree} (h : t.scalars = t'.scalars) :
    t.line = t'.line := congrArg (fun q => q.2.1) h

theorem scalars_isLeaf {t t' : NKTree} (h : t.scalars = t'.scalars) :
    t.isLeaf = t'.isLeaf := congrArg (fun q => q.2.2.2.1) h

/-- A flat insert never changes the scalar fields of an existing node. -/
theorem insertFlat_pres (a : Assignment) :
    ∀ (p : List String) (ch : List (String × NKTree)) (t : NKTree),
      lookupPath ch p = some t →
      ∃ t', lookupPath (insertFlat a ch) p = some t' ∧ t'.scalars = t.scalars := by
  intro p ch t h
  unfold insertFlat
  rcases hk : alookup a.key ch with _ | t0
  · cases p with
    | nil => simp [lookupPath] at h
    | cons k' p' =>
      simp only [lookupPath] at h
      rcases hck' : alookup k' ch with _ | t1
      · rw [hck'] at h; exact absurd h (by simp)
      · rw [hck'] at h
        have h2 : (if p'.isEmpty = true then some t1 else
            lookupPath t1.children p') = some t := h
        refine ⟨t, ?_, rfl⟩
        have hlap : alookup k' (ch ++ [(a.key, NKTree.node a.key a.line a.nota
            true a.isDynamic [])]) = some t1 := by
          rw [alookup_append_single]; simp [hck']
        simp only [lookupPath, hlap]
        exact h2
  · exact ⟨t, h, rfl⟩

/-- A flat insert creates exactly the one-key path of the assignment. -/
theorem insertFlat_new (a : Assignment) :
    ∀ (p : List String) (ch : List (String × NKTree)),
      p ≠ [] → lookupPath ch p = none →
      (p.isPrefixOf [a.key] = true →
          ∃ t', lookupPath (insertFlat a ch) p = some t' ∧
            t'.line = a.line ∧ t'.isLeaf = (p == [a.key])) ∧
        (p.isPrefixOf [a.key] = false → lookupPath (insertFlat a ch) p = none) := by
  intro p ch hp h
  cases p with
  | nil => exact absurd rfl hp
  | cons k' p' =>
    simp only [lookupPath] at h
    unfold insertFlat
    have hpre_eq : (k' :: p').isPrefixOf [a.key] =
        ((k' == a.key) && p'.isPrefixOf []) := by
      simp [List.isPrefixOf]
    have hbeq_eq : ((k' :: p') == [a.key]) = ((k' == a.key) && (p' == [])) := rfl
    rcases hk : alookup a.key ch with _ | t0
    · rcases hck' : alookup k' ch with _ | t1
      · by_cases hkk : k' = a.key
        · have hlap : alookup k' (ch ++ [(a.key, NKTree.node a.key a.line a.nota
              true a.isDynamic [])]) =
              some (NKTree.node a.key a.line a.nota true a.isDynamic []) := by
            rw [alookup_append_single]
            simp [hck', hkk, hk]
          cases p' with
          | nil =>
            constructor
            · intro _
              refine ⟨NKTree.node a.key a.line a.nota true a.isDynamic [],
                ?_, rfl, ?_⟩
              · simp [lookupPath, hlap]
              · rw [hbeq_eq]
                simp [NKTree.isLeaf, hkk]
            · intro hpre
              rw [hpre_eq] at hpre
              simp [hkk, List.isPrefixOf] at hpre
          | cons x xs =>
            constructor
            · intro hpre
              rw [hpre_eq] at hpre
              simp [List.isPrefixOf] at hpre
            · intro _
              simp [lookupPath, hlap, alookup]
        · have hlap : alookup k' (ch ++ [(a.key, NKTree.node a.key a.line a.nota
              true a.isDynamic [])]) = none := by
            rw [alookup_append_single]
            simp [hck', hkk]
          constructor
          · intro hpre
            rw [hpre_eq] at hpre
            simp only [Bool.and_eq_true, beq_iff_eq] at hpre
            exact absurd hpre.1 hkk
          · intro _
            simp [lookupPath, hlap]
      · rw [hck'] at h
        have h2 : (if p'.isEmpty = true then some t1 else
            lookupPath t1.children p') = none := h
        have hkk : ¬ k' = a.key := by
          intro he
          rw [he, hk] at hck'
          exact absurd hck' (by simp)
        have hlap : alookup k' (ch ++ [(a.key, NKTree.node a.key a.line a.nota
            true a.isDynamic [])]) = some t1 := by
          rw [alookup_append_single]
          simp [hck']
        constructor
        · intro hpre
          rw [hpre_eq] at hpre
          simp only [Bool.and_eq_true, beq_iff_eq] at hpre
          exact absurd hpre.1 hkk
        · intro _
          simp only [lookupPath, hlap]
          exact h2
    · constructor
      · intro hpre
        rw [hpre_eq] at hpre
        simp only [Bool.and_eq_true, beq_iff_eq] at hpre
        have hp' : p' = [] := by
          cases p' with
          | nil => rfl
          | cons x xs => simp [List.isPrefixOf] at hpre
        subst hp'
        rw [hpre.1, hk] at h
        simp [List.isEmpty] at h
      · intro _
        exact h

/-- One fold step preserves existing nodes' scalar fields. -/
theorem buildStep_pres (a : Assignment) (p : List String)
    (ch : List (String × NKTree)) (t : NKTree) (h : lookupPath ch p = some t) :
    ∃ t', lookupPath (buildStep ch a) p = some t' ∧ t'.scalars = t.scalars := by
  unfold buildStep
  cases hn : a.nested with
  | nil => exact insertFlat_pres a p ch t h
  | cons x xs =>
    simp only [hn]
    exact insertChain_pres a.line a.nota p (x :: xs) ch t h

/-- One fold step creates exactly the prefixes of the assignment's effective
path, recording its line, with `isLeaf` exactly on the full path. -/
theorem buildStep_new (a : Assignment) (p : List String)
    (ch : List (String × NKTree)) (hp : p ≠ []) (h : lookupPath ch p = none) :
    (p.isPrefixOf (effectivePath a) = true →
        ∃ t', lookupPath (buildStep ch a) p = some t' ∧
          t'.line = a.line ∧ t'.isLeaf = (p == effectivePath a)) ∧
      (p.isPrefixOf (effectivePath a) = false →
        lookupPath (buildStep ch a) p = none) := by
  unfold buildStep effectivePath
  cases hn : a.nested with
  | nil =>
    simp only [hn]
    exact insertFlat_new a p ch hp h
  | cons x xs =>
    simp only [hn]
    have h2 := insertChain_new a.line a.nota p (x :: xs) ch hp h
    exact h2

/-- Folding assignments into the tree: existing nodes keep their scalar
fields, and a fresh path gets the line of the first assignment covering it. -/
theorem foldl_buildStep_lookup :
    ∀ (as : List Assignment) (ch : List (String × NKTree)) (p : List String),
      p ≠ [] →
      (∀ t, lookupPath ch p = some t →
          ∃ t', lookupPath (as.foldl buildStep ch) p = some t' ∧
            t'.scalars = t.scalars) ∧
        (lookupPath ch p = none →
          (∀ a, as.find? (fun a0 => p.isPrefixOf (effectivePath a0)) = some a →
              ∃ t', lookupPath (as.foldl buildStep ch) p = some t' ∧
                t'.line = a.line ∧ t'.isLeaf = (p == effectivePath a)) ∧
            (as.find? (fun a0 => p.isPrefixOf (effectivePath a0)) = none →
              lookupPath (as.foldl buildStep ch) p = none)) := by
  intro as
  induction as with
  | nil =>
    intro ch p _
    refine ⟨fun t h => ⟨t, h, rfl⟩, fun h => ⟨?_, fun _ => h⟩⟩
    intro a ha
    simp [List.find?] at ha
  | cons a0 as' ih =>
    intro ch p hp
    constructor
    · intro t h
      rcases buildStep_pres a0 p ch t h with ⟨t1, h1, hs1⟩
      rcases (ih (buildStep ch a0) p hp).1 t1 h1 with ⟨t2, h2, hs2⟩
      exact ⟨t2, by simpa using h2, hs2.trans hs1⟩
    · intro h
      have hnew := buildStep_new a0 p ch hp h
      by_cases hcov : p.isPrefixOf (effectivePath a0) = true
      · constructor
        · intro a ha
          simp only [List.find?_cons, hcov] at ha
          have haa : a0 = a := Option.some.inj ha
          subst haa
          rcases hnew.1 hcov with ⟨t', ht', hl, hleaf⟩
          rcases (ih (buildStep ch a0) p hp).1 t' ht' with ⟨t2, h2, hs2⟩
          refine ⟨t2, by simpa using h2, ?_, ?_⟩
          · rw [scalars_line hs2, hl]
          · rw [scalars_isLeaf hs2, hleaf]
        · intro hfn
          simp [List.find?_cons, hcov] at hfn
      · have hcov' : p.isPrefixOf (effectivePath a0) = false :=
          Bool.not_eq_true _ ▸ (by simpa using hcov)
        have hnone : lookupPath (buildStep ch a0) p = none := hnew.2 hcov'
        have hrest := (ih (buildStep ch a0) p hp).2 hnone
        constructor
        · intro a ha
          simp only [List.find?_cons, hcov'] at ha
          rcases hrest.1 a (by simpa using ha) with ⟨t2, h2, hl, hleaf⟩
          exact ⟨t2, by simpa using h2, hl, hleaf⟩
        · intro hfn
          simp only [List.find?_cons, hcov'] at hfn
          have := hrest.2 (by simpa using hfn)
          simpa using this

/-- The empty root resolves no path. -/
theorem lookupPath_nil (p : List String) :
    lookupPath ([] : List (String × NKTree)) p = none := by
  cases p with
  | nil => rfl
  | cons k p' => simp [lookupPath, alookup]

/-- C4: `buildNestedMapStructure` folds all key assignments into a tree in
which, for every nonempty key path, a node exists exactly when some
assignment's effective path (its nested chain, or the single flat key)
extends the path; the node retains the line of the *first* such assignment
(later assignments to the same path create no duplicate and change nothing),
and its `isLeaf` flag is set exactly when that first assignment's path ends
there. -/
theorem C4_nested_structure_first_seen :
    ∀ (lines : List String) (mapName : String) (p : List String), p ≠ [] →
      ((∃ t, lookupPath (buildNestedMapStructure lines mapName) p = some t) ↔
          ∃ a ∈ parseKeyAssignments lines mapName,
            p.isPrefixOf (effectivePath a) = true) ∧
        (∀ t a, lookupPath (buildNestedMapStructure lines mapName) p = some t →
          (parseKeyAssignments lines mapName).find?
              (fun a0 => p.isPrefixOf (effectivePath a0)) = some a →
          t.line = a.line ∧ t.isLeaf = (p == effectivePath a)) := by
  intro lines mapName p hp
  have hfold := foldl_buildStep_lookup (parseKeyAssignments lines mapName) [] p hp
  have hbase := hfold.2 (lookupPath_nil p)
  constructor
  · constructor
    · rintro ⟨t, ht⟩
      by_contra hno
      push_neg at hno
      have hfn : (parseKeyAssignments lines mapName).find?
          (fun a0 => p.isPrefixOf (effectivePath a0)) = none := by
        rw [List.find?_eq_none]
        intro a ha
        simpa using hno a ha
      have := hbase.2 hfn
      rw [buildNestedMapStructure] at ht
      rw [this] at ht
      exact absurd ht (by simp)
    · rintro ⟨a, ha, hcov⟩
      have hsome : ((parseKeyAssignments lines mapName).find?
          (fun a0 => p.isPrefixOf (effectivePath a0))).isSome := by
        rw [List.find?_isSome]
        exact ⟨a, ha, hcov⟩
      rcases Option.isSome_iff_exists.mp hsome with ⟨a1, ha1⟩
      rcases hbase.1 a1 ha1 with ⟨t, ht, _, _⟩
      exact ⟨t, by rw [buildNestedMapStructure]; exact ht⟩
  · intro t a ht hfind
    rcases hbase.1 a hfind with ⟨t', ht', hl, hleaf⟩
    rw [buildNestedMapStructure] at ht
    rw [ht] at ht'
    have := Option.some.inj ht'
    subst this
    exact ⟨hl, hleaf⟩

/-- C4 witness: for `$mData["a"]["b"] = 1`, the root has exactly one child
`"a"`, that node has exactly one child `"b"`, the `"b"` node is a leaf, both
record line 0, and the first-seen characterisation applies at both paths. -/
theorem C4_nested_structure_first_seen_witness :
    (buildNestedMapStructure dataLines "$mData").map Prod.fst = ["a"] ∧
      ((lookupPath (buildNestedMapStructure dataLines "$mData") ["a"]).map
          (fun t => t.children.map Prod.fst)) = some ["b"] ∧
      (∀ t a, lookupPath (buildNestedMapStructure dataLines "$mData")
            ["a", "b"] = some t →
        (parseKeyAssignments dataLines "$mData").find?
            (fun a0 => (["a", "b"] : List String).isPrefixOf
              (effectivePath a0)) = some a →
        t.line = a.line ∧ t.isLeaf = ((["a", "b"] : List String) ==
          effectivePath a)) ∧
      ((lookupPath (buildNestedMapStructure dataLines "$mData")
          ["a", "b"]).map (fun t => (t.line, t.isLeaf))) = some (0, true) := by
  refine ⟨by decide, by decide,
    (C4_nested_structure_first_seen dataLines "$mData" ["a", "b"]
      (by decide)).2, by decide⟩

/-- A text with no `Func` line yields no function boundaries. -/
theorem parseFunctionBoundaries_nil (lines : List String)
    (h : ∀ l ∈ lines, matchFuncStart l = none) :
    parseFunctionBoundaries lines = [] := by
  unfold parseFunctionBoundaries
  suffices haux : ∀ (ls : List String) (n : Nat) (fns : List FuncB),
      (∀ l ∈ ls, matchFuncStart l = none) →
      (enumFrom n ls).foldl funcScanStep (fns, none) = (fns, none) by
    rw [haux lines 0 [] h]
  intro ls
  induction ls with
  | nil => intro n fns _; rfl
  | cons l ls' ih =>
    intro n fns hall
    have hl : matchFuncStart l = none := hall l (List.mem_cons_self l ls')
    have hstep : funcScanStep (fns, none) (n, l) = (fns, none) := by
      unfold funcScanStep
      rw [hl]
      by_cases he : matchFuncEnd l <;> simp [he]
    simp only [enumFrom, List.foldl_cons, hstep]
    exact ih (n + 1) fns (fun x hx => hall x (List.mem_cons_of_mem l hx))

/-- Lines without a declaration match contribute no declarations. -/
theorem parseMapDeclarations_aux_nil (ls : List String)
    (h : ∀ l ∈ ls, matchMapDecl l = none) :
    ∀ n, (enumFrom n ls).filterMap (fun il =>
      if isCommentLine il.2 then none
      else (matchMapDecl il.2).map fun scnm => (⟨scnm.2, scnm.1, il.1⟩ : MapDecl)) = [] := by
  induction ls with
  | nil => intro n; rfl
  | cons l ls' ih =>
    intro n
    have hl : matchMapDecl l = none := h l (List.mem_cons_self l ls')
    simp only [enumFrom, List.filterMap_cons]
    rw [hl]
    have := ih (fun x hx => h x (List.mem_cons_of_mem l hx)) (n + 1)
    by_cases hc : isCommentLine l <;> simp [hc, this]

/-- One-assignment-per-line emission inverted. -/
theorem map_key_singleton {la : List Assignment} {k : String}
    (h : la.map (·.key) = [k]) : ∃ a, la = [a] ∧ a.key = k := by
  cases la with
  | nil => simp at h
  | cons a rest =>
    cases rest with
    | nil =>
      refine ⟨a, rfl, ?_⟩
      simpa using h
    | cons b rest' => simp at h

/-- The `directKeys` fold over assignment lines numbered from `j`, in a text
with no functions: the keys of the lines strictly before the target, folded
into the set in order. -/
theorem directKeys_fold_flat (mapName scope : String) (L : Nat) :
    ∀ (rest : List String) (ks : List String) (j : Nat) (acc : List String),
      List.Forall₂ (fun (il : Nat × String) (k : String) =>
        (lineAssign mapName il.1 il.2).map (·.key) = [k]) (enumFrom j rest) ks →
      ((enumFrom j rest).flatMap (fun il => lineAssign mapName il.1 il.2)).foldl
          (assignKeyStep [] none scope L) acc =
        (ks.take (L - j)).foldl insertIfAbsent acc := by
  intro rest
  induction rest with
  | nil =>
    intro ks j acc hfa
    have hks : ks = [] := by
      cases hfa
      rfl
    subst hks
    simp [enumFrom]
  | cons l rest' ih =>
    intro ks j acc hfa
    rcases ks with _ | ⟨k, ks'⟩
    · exact absurd hfa (by intro hh; cases hh)
    · have hfa' : List.Forall₂ (fun (il : Nat × String) (k : String) =>
          (lineAssign mapName il.1 il.2).map (·.key) = [k])
          (enumFrom (j + 1) rest') ks' := by
        cases hfa
        assumption
      have hhead : (lineAssign mapName j l).map (·.key) = [k] := by
        cases hfa
        assumption
      rcases map_key_singleton hhead with ⟨a, hla, hak⟩
      have haline : a.line = j := lineAssign_mem_line mapName j l a
        (hla ▸ List.mem_singleton_self a)
      simp only [enumFrom, List.flatMap_cons, List.foldl_append, hla]
      have hstep : (assignKeyStep [] none scope L) acc a =
          if L ≤ j then acc else insertIfAbsent acc k := by
        unfold assignKeyStep
        rw [haline, hak]
        by_cases hLj : L ≤ j
        · simp [hLj]
        · simp [hLj, getFunctionAtLine]
      by_cases hLj : L ≤ j
      · have htake : L - j = 0 := by omega
        have htake' : L - (j + 1) = 0 := by omega
        have := ih ks' (j + 1) acc hfa'
        rw [htake'] at this
        simp only [List.foldl_cons, hstep, if_pos hLj, htake, List.take_zero]
        simpa using this
      · have harith : L - j = (L - (j + 1)) + 1 := by omega
        have := ih ks' (j + 1) (insertIfAbsent acc k) hfa'
        simp only [List.foldl_cons, hstep, if_neg hLj, harith, List.take_succ_cons]
        simpa using this

/-- C1: for a source text consisting of a single flat-key container
declaration on line 0 followed only by assignment lines for that container
(one key per line, no function or further declaration lines),
`getKeysForMapAtLine` queried at line `L` returns as `directKeys` exactly the
distinct keys assigned on lines strictly before `L`, in order of first
appearance. -/
theorem C1_flat_key_container_keys :
    ∀ (declLine : String) (rest : List String) (mapName scope : String)
      (ks : List String) (L : Nat),
      matchMapDecl declLine = some (scope, mapName) →
      ¬ isCommentLine declLine = true →
      lineAssign mapName 0 declLine = [] →
      (∀ l ∈ declLine :: rest, matchFuncStart l = none) →
      (∀ l ∈ rest, matchMapDecl l = none) →
      List.Forall₂ (fun (il : Nat × String) (k : String) =>
        (lineAssign mapName il.1 il.2).map (·.key) = [k]) (enumFrom 1 rest) ks →
      (getKeysForMapAtLine (declLine :: rest) mapName L true).directKeys =
        firstSeen (ks.take (L - 1)) := by
  intro declLine rest mapName scope ks L hdecl hcmt hnoassign hnof hnodecl hfa
  have hfns : parseFunctionBoundaries (declLine :: rest) = [] :=
    parseFunctionBoundaries_nil _ hnof
  have hcf : getFunctionAtLine (parseFunctionBoundaries (declLine :: rest)) L
      = none := by rw [hfns]; rfl
  have hdecls : parseMapDeclarations (declLine :: rest) =
      [⟨mapName, scope, 0⟩] := by
    unfold parseMapDeclarations
    simp only [enumFrom, List.filterMap_cons]
    rw [if_neg hcmt, hdecl]
    rw [parseMapDeclarations_aux_nil rest hnodecl 1]
    rfl
  have hclosest : closestDeclFor (declLine :: rest) mapName L =
      some ⟨mapName, scope, 0⟩ := by
    unfold closestDeclFor
    rw [hdecls, hfns]
    simp only [List.foldl_cons, List.foldl_nil]
    unfold declStep
    simp [getFunctionAtLine]
  have hassigns : parseKeyAssignments (declLine :: rest) mapName =
      (enumFrom 1 rest).flatMap (fun il => lineAssign mapName il.1 il.2) := by
    unfold parseKeyAssignments
    simp only [enumFrom, List.flatMap_cons, hnoassign, List.nil_append]
  unfold getKeysForMapAtLine
  rw [hclosest]
  show directKeysFor (declLine :: rest) mapName L ⟨mapName, scope, 0⟩ =
    firstSeen (ks.take (L - 1))
  unfold directKeysFor
  rw [hassigns, hfns]
  have hfold := directKeys_fold_flat mapName scope L rest ks 1 [] hfa
  rw [hcf] at *
  exact hfold.trans rfl

/-- C1 witness: the spec's end-to-end example
`Local $mUser[]` / `$mUser.name = "John"` / `$mUser.age = 30` queried at
line 3 yields `directKeys = ["name", "age"]`. -/
theorem C1_flat_key_container_keys_witness :
    matchMapDecl "Local $mUser[]" = some ("Local", "$mUser") ∧
      (getKeysForMapAtLine userLines "$mUser" 3 true).directKeys =
        ["name", "age"] := by
  have hfa : List.Forall₂ (fun (il : Nat × String) (k : String) =>
      (lineAssign "$mUser" il.1 il.2).map (·.key) = [k])
      (enumFrom 1 ["$mUser.name = \"John\"", "$mUser.age = 30"])
      ["name", "age"] :=
    List.Forall₂.cons (by decide) (List.Forall₂.cons (by decide) List.Forall₂.nil)
  have h := C1_flat_key_container_keys "Local $mUser[]"
    ["$mUser.name = \"John\"", "$mUser.age = 30"] "$mUser" "Local"
    ["name", "age"] 3 (by decide) (by decide) (by decide)
    (by intro l hl; fin_cases hl <;> decide) (by intro l hl; fin_cases hl <;> decide)
    hfa
  exact ⟨by decide, h.trans (by decide)⟩

/-- Unpack a successful function-at-line lookup. -/
theorem getFunctionAtLine_some {fns : List FuncB} {x : Nat} {f : FuncB}
    (h : getFunctionAtLine fns x = some f) :
    f ∈ fns ∧ f.startLine ≤ x ∧ x ≤ f.endLine := by
  unfold getFunctionAtLine at h
  refine ⟨List.mem_of_find?_eq_some h, ?_⟩
  have := List.find?_some h
  simpa using this

/-- Unpack a failed function-at-line lookup. -/
theorem getFunctionAtLine_none {fns : List FuncB} {x : Nat}
    (h : getFunctionAtLine fns x = none) :
    ∀ f ∈ fns, ¬ (f.startLine ≤ x ∧ x ≤ f.endLine) := by
  unfold getFunctionAtLine at h
  intro f hf
  have := List.find?_eq_none.mp h f hf
  simpa using this

/-- Master case analysis of one iteration of the selection loop, with the
query line inside a function: the running value either survives unchanged or
is replaced by the iterated declaration, and a replacement can only be a
name-matching declaration at or before the target that is at least as close
as the incumbent and lies either inside a function named like the query's or
at top level with the `Global` keyword. -/
theorem declStep_cases (fns : List FuncB) (cfn : FuncB) (mapName : String)
    (L : Nat) (cur : Option MapDecl) (d0 : MapDecl) :
    declStep fns (some cfn) mapName L cur d0 = cur ∨
      (declStep fns (some cfn) mapName L cur d0 = some d0 ∧
        sToLower d0.name = sToLower mapName ∧ d0.line ≤ L ∧
        (∀ c, cur = some c → L - d0.line ≤ L - c.line) ∧
        ((∃ df, getFunctionAtLine fns d0.line = some df ∧ df.name = cfn.name) ∨
          (getFunctionAtLine fns d0.line = none ∧
            sToLower d0.scope = "global"))) := by
  by_cases h1 : sToLower d0.name ≠ sToLower mapName
  · left; simp [declStep, h1]
  · have hname : sToLower d0.name = sToLower mapName := not_not.mp h1
    by_cases h2 : L < d0.line
    · left; simp [declStep, h1, h2]
    · have hle : d0.line ≤ L := Nat.le_of_not_lt h2
      rcases hdf : getFunctionAtLine fns d0.line with _ | df
      · by_cases h3 : sToLower d0.scope = "global"
        · rcases cur with _ | c
          · right
            refine ⟨?_, hname, hle, (fun c hc => by cases hc),
              Or.inr ⟨rfl, h3⟩⟩
            simp [declStep, h1, h2, hdf, h3]
          · by_cases h4 : sToLower c.scope ≠ "local"
            · by_cases h5 : L - d0.line ≤ L - c.line
              · right
                refine ⟨?_, hname, hle, ?_, Or.inr ⟨rfl, h3⟩⟩
                · simp [declStep, h1, h2, hdf, h3, h4, h5]
                · intro c' hc'
                  rw [Option.some.inj hc'] at h5
                  exact h5
              · left; simp [declStep, h1, h2, hdf, h3, h4, h5]
            · left; simp [declStep, h1, h2, hdf, h3, h4]
        · left; simp [declStep, h1, h2, hdf, h3]
      · by_cases h3 : df.name = cfn.name
        · rcases cur with _ | c
          · right
            refine ⟨?_, hname, hle, (fun c hc => by cases hc),
              Or.inl ⟨df, rfl, h3⟩⟩
            simp [declStep, h1, h2, hdf, h3]
          · by_cases h5 : L - d0.line ≤ L - c.line
            · right
              refine ⟨?_, hname, hle, ?_, Or.inl ⟨df, rfl, h3⟩⟩
              · simp [declStep, h1, h2, hdf, h3, h5]
              · intro c' hc'
                rw [Option.some.inj hc'] at h5
                exact h5
            · left; simp [declStep, h1, h2, hdf, h3, h5]
        · left; simp [declStep, h1, h2, hdf, h3]

/-- When the iterated declaration lies inside the query's own function (same
boundary), the step result is that declaration, unless the incumbent is
strictly closer. -/
theorem declStep_eligible (fns : List FuncB) (cfn : FuncB) (mapName : String)
    (L : Nat) (cur : Option MapDecl) (d0 : MapDecl)
    (hname : sToLower d0.name = sToLower mapName) (hle : d0.line ≤ L)
    (hdf : getFunctionAtLine fns d0.line = some cfn) :
    declStep fns (some cfn) mapName L cur d0 = some d0 ∨
      (∃ c, cur = some c ∧ declStep fns (some cfn) mapName L cur d0 = cur ∧
        ¬ (L - d0.line ≤ L - c.line)) := by
  have h1 : ¬ sToLower d0.name ≠ sToLower mapName := not_not.mpr hname
  have h2 : ¬ L < d0.line := Nat.not_lt.mpr hle
  rcases cur with _ | c
  · left; simp [declStep, h1, h2, hdf]
  · by_cases h5 : L - d0.line ≤ L - c.line
    · left; simp [declStep, h1, h2, hdf, h5]
    · right
      exact ⟨c, rfl, by simp [declStep, h1, h2, hdf, h5], h5⟩

/-- A declaration selected for a query inside a function lies at or before
the query line and is either inside the query's own function or top level
with a `Global` keyword (function names being distinct). -/
theorem foldl_declStep_ok (fns : List FuncB) (cfn : FuncB) (mapName : String)
    (L : Nat) (hnodup : (fns.map FuncB.name).Nodup) (hcfn : cfn ∈ fns) :
    ∀ (l : List MapDecl) (init : Option MapDecl),
      (∀ d, init = some d → d.line ≤ L ∧
        (getFunctionAtLine fns d.line = some cfn ∨
          (getFunctionAtLine fns d.line = none ∧ sToLower d.scope = "global"))) →
      ∀ d, l.foldl (declStep fns (some cfn) mapName L) init = some d →
        d.line ≤ L ∧ (getFunctionAtLine fns d.line = some cfn ∨
          (getFunctionAtLine fns d.line = none ∧
            sToLower d.scope = "global")) := by
  intro l
  induction l with
  | nil => intro init hinit d hd; exact hinit d hd
  | cons d0 l' ih =>
    intro init hinit
    simp only [List.foldl_cons]
    apply ih
    intro d hd
    rcases declStep_cases fns cfn mapName L init d0 with hsame | ⟨hres, _, hle, _, hcls⟩
    · rw [hsame] at hd
      exact hinit d hd
    · rw [hres] at hd
      obtain rfl := Option.some.inj hd
      refine ⟨hle, ?_⟩
      rcases hcls with ⟨df, hdf, hdfn⟩ | htop
      · left
        have hdmem := (getFunctionAtLine_some hdf).1
        have := List.inj_on_of_nodup_map hnodup hdmem hcfn hdfn
        rw [← this]
        exact hdf
      · right
        exact htop

/-- Once the running declaration is inside the query's own function, it stays
inside it for the rest of the loop. -/
theorem foldl_declStep_local (fns : List FuncB) (cfn : FuncB) (mapName : String)
    (L : Nat) (hnodup : (fns.map FuncB.name).Nodup) (hcfn : cfn ∈ fns)
    (hLc : cfn.startLine ≤ L ∧ L ≤ cfn.endLine) :
    ∀ (l : List MapDecl) (init : Option MapDecl),
      (∃ c, init = some c ∧ c.line ≤ L ∧
        getFunctionAtLine fns c.line = some cfn) →
      ∃ d, l.foldl (declStep fns (some cfn) mapName L) init = some d ∧
        d.line ≤ L ∧ getFunctionAtLine fns d.line = some cfn := by
  intro l
  induction l with
  | nil => intro init h; simpa using h
  | cons d0 l' ih =>
    intro init hinit
    simp only [List.foldl_cons]
    apply ih
    rcases hinit with ⟨c, hc, hcle, hcf⟩
    rcases declStep_cases fns cfn mapName L init d0 with hsame | ⟨hres, _, hle, hdist, hcls⟩
    · exact ⟨c, by rw [hsame]; exact hc, hcle, hcf⟩
    · rcases hcls with ⟨df, hdf, hdfn⟩ | ⟨hnone, _⟩
      · have hdmem := (getFunctionAtLine_some hdf).1
        have hdfcfn := List.inj_on_of_nodup_map hnodup hdmem hcfn hdfn
        exact ⟨d0, hres, hle, by rw [← hdfcfn]; exact hdf⟩
      · exfalso
        have h1 := (getFunctionAtLine_some hcf).2.1
        have h2 := getFunctionAtLine_none hnone cfn hcfn
        have h3 : d0.line ≤ cfn.endLine := Nat.le_trans hle hLc.2
        have h4 : d0.line < cfn.startLine := by
          by_contra h4
          exact h2 ⟨Nat.le_of_not_lt h4, h3⟩
        have := hdist c hc
        omega

/-- C2 (amended): in `getKeysForMapAtLine`'s declaration selection, for every
source text whose parsed function boundaries carry pairwise-distinct names
and every query line inside a function: the winning declaration is at or
before the query line and lies either inside the query's own function or at
top level with scope keyword `Global` (so a declaration inside a different
function is never chosen, and a top-level declaration needs the `Global`
keyword); and whenever a name-matching declaration inside the query's own
function exists at or before the query line, the winner is such a
declaration — a top-level one is used only as a fallback.  (Without the
distinct-name hypothesis the code conflates same-named functions, see the
counterexample.) -/
theorem C2_scope_precedence_amended :
    ∀ (lines : List String) (mapName : String) (L : Nat) (cfn : FuncB),
      ((parseFunctionBoundaries lines).map FuncB.name).Nodup →
      getFunctionAtLine (parseFunctionBoundaries lines) L = some cfn →
      (∀ d, closestDeclFor lines mapName L = some d →
          d.line ≤ L ∧
            (getFunctionAtLine (parseFunctionBoundaries lines) d.line =
                some cfn ∨
              (getFunctionAtLine (parseFunctionBoundaries lines) d.line =
                  none ∧ sToLower d.scope = "global"))) ∧
        ((∃ d0 ∈ parseMapDeclarations lines,
            sToLower d0.name = sToLower mapName ∧ d0.line ≤ L ∧
              getFunctionAtLine (parseFunctionBoundaries lines) d0.line =
                some cfn) →
          ∃ d, closestDeclFor lines mapName L = some d ∧
            getFunctionAtLine (parseFunctionBoundaries lines) d.line =
              some cfn) := by
  intro lines mapName L cfn hnodup hcf
  have hcfn : cfn ∈ parseFunctionBoundaries lines := (getFunctionAtLine_some hcf).1
  have hLc : cfn.startLine ≤ L ∧ L ≤ cfn.endLine := (getFunctionAtLine_some hcf).2
  have hunfold : closestDeclFor lines mapName L =
      (parseMapDeclarations lines).foldl
        (declStep (parseFunctionBoundaries lines) (some cfn) mapName L) none := by
    simp only [closestDeclFor]
    rw [hcf]
  constructor
  · intro d hd
    rw [hunfold] at hd
    exact foldl_declStep_ok (parseFunctionBoundaries lines) cfn mapName L
      hnodup hcfn (parseMapDeclarations lines) none (by intro d' hd'; cases hd')
      d hd
  · rintro ⟨d0, hmem, hname, hle, hdf⟩
    rcases List.append_of_mem hmem with ⟨s, t, hst⟩
    rw [hunfold, hst, List.foldl_append, List.foldl_cons]
    set A := s.foldl (declStep (parseFunctionBoundaries lines) (some cfn)
      mapName L) none with hA
    have hPA := foldl_declStep_ok (parseFunctionBoundaries lines) cfn mapName L
      hnodup hcfn s none (by intro d' hd'; cases hd')
    have hQ : ∃ c, declStep (parseFunctionBoundaries lines) (some cfn) mapName
        L A d0 = some c ∧ c.line ≤ L ∧
        getFunctionAtLine (parseFunctionBoundaries lines) c.line = some cfn := by
      rcases declStep_eligible (parseFunctionBoundaries lines) cfn mapName L A
          d0 hname hle hdf with hres | ⟨c, hAc, hres, hdist⟩
      · exact ⟨d0, hres, hle, hdf⟩
      · rcases hPA c hAc with ⟨hcle, hcf' | ⟨hnone, _⟩⟩
        · exact ⟨c, by rw [hres, hAc], hcle, hcf'⟩
        · exfalso
          have h2 := getFunctionAtLine_none hnone cfn hcfn
          have h3 : c.line ≤ cfn.endLine := Nat.le_trans hcle hLc.2
          have h4 : c.line < cfn.startLine := by
            by_contra h4
            exact h2 ⟨Nat.le_of_not_lt h4, h3⟩
          have h5 : cfn.startLine ≤ d0.line := (getFunctionAtLine_some hdf).2.1
          omega
    rcases hQ with ⟨c, hstep, hcle, hcf'⟩
    have := foldl_declStep_local (parseFunctionBoundaries lines) cfn mapName L
      hnodup hcfn hLc t (declStep (parseFunctionBoundaries lines) (some cfn)
        mapName L A d0) ⟨c, hstep, hcle, hcf'⟩
    exact this.imp (fun d hd => ⟨hd.1, hd.2.2⟩)

/-- C2 counterexample: with two functions both named `F`, querying line 4
(inside the second `F`, boundary lines 3–5) selects the declaration on line 1,
which lies inside the *first* `F` (boundary lines 0–2) — a different function
— because the code compares functions by name only.  This refutes the
claim's "a declaration inside a different function is never chosen". -/
theorem C2_scope_precedence_cex :
    getFunctionAtLine (parseFunctionBoundaries dupFnLines) 4 =
        some ⟨"F", 3, 5, []⟩ ∧
      closestDeclFor dupFnLines "$m" 4 = some ⟨"$m", "Local", 1⟩ ∧
      getFunctionAtLine (parseFunctionBoundaries dupFnLines) 1 =
        some ⟨"F", 0, 2, []⟩ ∧
      (⟨"F", 0, 2, []⟩ : FuncB) ≠ ⟨"F", 3, 5, []⟩ ∧
      (getKeysForMapAtLine
        ["Func F()", "Local $m[]", "$m.a = 1", "EndFunc",
         "Func F()", "$m.b = 2", "EndFunc"] "$m" 5 true).directKeys = ["a"] :=
  ⟨by decide, by decide, by decide, by decide, by decide⟩

/-- C2 witness (for the amended theorem): a file with distinct function
names; querying line 3 inside `F` picks the `Local` declaration inside `F`
over the top-level `Global` one. -/
theorem C2_scope_precedence_amended_witness :
    ((parseFunctionBoundaries scopedLines).map FuncB.name).Nodup ∧
      getFunctionAtLine (parseFunctionBoundaries scopedLines) 3 =
        some ⟨"F", 1, 4, []⟩ ∧
      (∃ d, closestDeclFor scopedLines "$m" 3 = some d ∧
        getFunctionAtLine (parseFunctionBoundaries scopedLines) d.line =
          some ⟨"F", 1, 4, []⟩) ∧
      closestDeclFor scopedLines "$m" 3 = some ⟨"$m", "Local", 2⟩ := by
  have hnodup : ((parseFunctionBoundaries scopedLines).map FuncB.name).Nodup := by
    decide
  have hcf : getFunctionAtLine (parseFunctionBoundaries scopedLines) 3 =
      some ⟨"F", 1, 4, []⟩ := by decide
  have h := C2_scope_precedence_amended scopedLines "$m" 3 ⟨"F", 1, 4, []⟩
    hnodup hcf
  refine ⟨hnodup, hcf, h.2 ⟨⟨"$m", "Local", 2⟩, by decide, by decide, by decide,
    by decide⟩, by decide⟩

theorem mem_insertIfAbsent (acc : List String) (k x : String) :
    x ∈ insertIfAbsent acc k ↔ x ∈ acc ∨ x = k := by
  unfold insertIfAbsent
  by_cases h : k ∈ acc
  · simp only [h, if_true]
    constructor
    · exact Or.inl
    · rintro (hx | rfl)
      · exact hx
      · exact h
  · simp [h]

theorem mem_foldl_insertIfAbsent :
    ∀ (xs : List String) (acc : List String) (x : String),
      x ∈ xs.foldl insertIfAbsent acc ↔ x ∈ acc ∨ x ∈ xs := by
  intro xs
  induction xs with
  | nil => intro acc x; simp
  | cons k xs' ih =>
    intro acc x
    simp only [List.foldl_cons, ih, mem_insertIfAbsent, List.mem_cons]
    constructor
    · rintro ((hx | rfl) | hx)
      · exact Or.inl hx
      · exact Or.inr (Or.inl rfl)
      · exact Or.inr (Or.inr hx)
    · rintro (hx | (rfl | hx))
      · exact Or.inl (Or.inl hx)
      · exact Or.inl (Or.inr rfl)
      · exact Or.inr hx

theorem nodup_insertIfAbsent (acc : List String) (k : String)
    (h : acc.Nodup) : (insertIfAbsent acc k).Nodup := by
  unfold insertIfAbsent
  by_cases hk : k ∈ acc
  · simpa [hk]
  · simp only [hk, if_false]
    rw [List.nodup_append]
    exact ⟨h, List.nodup_singleton k, fun x hx hx1 => hk ((List.mem_singleton.mp hx1) ▸ hx)⟩

theorem nodup_foldl_insertIfAbsent :
    ∀ (xs : List String) (acc : List String), acc.Nodup →
      (xs.foldl insertIfAbsent acc).Nodup := by
  intro xs
  induction xs with
  | nil => intro acc h; exact h
  | cons k xs' ih =>
    intro acc h
    exact ih (insertIfAbsent acc k) (nodup_insertIfAbsent acc k h)

theorem alookup_mapSet_self {β : Type} :
    ∀ (m : List (String × β)) (k : String) (v : β),
      alookup k (mapSet m k v) = some v := by
  intro m
  induction m with
  | nil => intro k v; simp [mapSet, alookup]
  | cons kv m' ih =>
    intro k v
    rcases kv with ⟨k1, v1⟩
    by_cases h : k1 = k
    · simp [mapSet, alookup, h]
    · simp [mapSet, alookup, h, ih]

theorem alookup_mapSet_other {β : Type} :
    ∀ (m : List (String × β)) (k k' : String) (v : β), k' ≠ k →
      alookup k' (mapSet m k v) = alookup k' m := by
  intro m
  induction m with
  | nil =>
    intro k k' v hne
    have h' : ¬ k = k' := fun he => hne he.symm
    simp [mapSet, alookup, h']
  | cons kv m' ih =>
    intro k k' v hne
    rcases kv with ⟨k1, v1⟩
    by_cases h : k1 = k
    · subst h
      have : ¬ k1 = k' := fun he => hne (he.symm)
      simp [mapSet, alookup, this]
    · by_cases h2 : k1 = k'
      · simp [mapSet, alookup, h, h2, hne]
      · simp [mapSet, alookup, h, h2, ih _ _ _ hne]

/-- The loop of `getKeysForMapWithIncludes` over distinct included files,
started from any state whose parser cache agrees with the original on the
files still to process: `directKeys` are folded into the set file by file,
`functionKeys` are concatenated, read failures are logged and skipped, and
every file's contribution is its keys at end-of-file computed from the
original cache or, failing that, from disk. -/
theorem includeFold_spec (fs : FileSys) (mapName : String) (ps : ParserMap) :
    ∀ (l : List String), l.Nodup →
      ∀ (dAcc : List String) (fAcc : List CallKey) (ps' : ParserMap)
        (logs : List String),
        (∀ f ∈ l, alookup f ps' = alookup f ps) →
        (l.foldl (includeStep fs mapName) (dAcc, fAcc, ps', logs)).1 =
            ((l.filterMap (fun f => (endResultOf ps fs f mapName).map
              (·.directKeys))).flatten).foldl insertIfAbsent dAcc ∧
          (l.foldl (includeStep fs mapName) (dAcc, fAcc, ps', logs)).2.1 =
            fAcc ++ (l.filterMap (fun f => (endResultOf ps fs f mapName).map
              (·.functionKeys))).flatten ∧
          (l.foldl (includeStep fs mapName) (dAcc, fAcc, ps', logs)).2.2.2 =
            logs ++ l.filter (fun f => (availSource ps fs f).isNone) := by
  intro l
  induction l with
  | nil => intro _ dAcc fAcc ps' logs _; exact ⟨rfl, by simp, by simp⟩
  | cons f l' ih =>
    intro hnd dAcc fAcc ps' logs hagree
    have hf_agree : alookup f ps' = alookup f ps :=
      hagree f (List.mem_cons_self f l')
    have hnd' : l'.Nodup := (List.nodup_cons.mp hnd).2
    have hfnotin : f ∉ l' := (List.nodup_cons.mp hnd).1
    have hagree' : ∀ x ∈ l', alookup x ps' = alookup x ps :=
      fun x hx => hagree x (List.mem_cons_of_mem f hx)
    simp only [List.foldl_cons]
    rcases hcache : alookup f ps' with _ | lns0
    · rcases hread : fs.read f with _ | src
      · have hstep : includeStep fs mapName (dAcc, fAcc, ps', logs) f =
            (dAcc, fAcc, ps', logs ++ [f]) := by
          simp [includeStep, hcache, hread]
        have havail : availSource ps fs f = none := by
          unfold availSource
          rw [← hf_agree, hcache, hread]
          rfl
        have hend : endResultOf ps fs f mapName = none := by
          unfold endResultOf
          rw [havail]
          rfl
        rw [hstep]
        have hih := ih hnd' dAcc fAcc ps' (logs ++ [f]) hagree'
        refine ⟨?_, ?_, ?_⟩
        · rw [hih.1]
          simp [hend]
        · rw [hih.2.1]
          simp [hend]
        · rw [hih.2.2]
          simp [havail]
      · have hps2 : alookup f (svcUpdateFile ps' f src) = some (linesOf src) := by
          unfold svcUpdateFile
          exact alookup_mapSet_self ps' f (linesOf src)
        have hstep : includeStep fs mapName (dAcc, fAcc, ps', logs) f =
            ((svcGetKeysForMapAtEnd (svcUpdateFile ps' f src) f
                mapName).directKeys.foldl insertIfAbsent dAcc,
              fAcc ++ (svcGetKeysForMapAtEnd (svcUpdateFile ps' f src) f
                mapName).functionKeys,
              svcUpdateFile ps' f src, logs) := by
          simp [includeStep, hcache, hread]
        have havail : availSource ps fs f = some (linesOf src) := by
          unfold availSource
          rw [← hf_agree, hcache, hread]
          rfl
        have hsvc : svcGetKeysForMapAtEnd (svcUpdateFile ps' f src) f mapName =
            getKeysForMapAtLine (linesOf src) mapName (linesOf src).length true := by
          unfold svcGetKeysForMapAtEnd
          rw [hps2]
        have hend : endResultOf ps fs f mapName =
            some (getKeysForMapAtLine (linesOf src) mapName
              (linesOf src).length true) := by
          unfold endResultOf
          rw [havail]
          rfl
        have hagree2 : ∀ x ∈ l', alookup x (svcUpdateFile ps' f src) =
            alookup x ps := by
          intro x hx
          have hxf : x ≠ f := fun he => hfnotin (he ▸ hx)
          unfold svcUpdateFile
          rw [alookup_mapSet_other ps' f x (linesOf src) hxf]
          exact hagree x (List.mem_cons_of_mem f hx)
        rw [hstep]
        have hih := ih hnd'
          ((svcGetKeysForMapAtEnd (svcUpdateFile ps' f src) f
            mapName).directKeys.foldl insertIfAbsent dAcc)
          (fAcc ++ (svcGetKeysForMapAtEnd (svcUpdateFile ps' f src) f
            mapName).functionKeys)
          (svcUpdateFile ps' f src) logs hagree2
        refine ⟨?_, ?_, ?_⟩
        · rw [hih.1]
          simp only [List.filterMap_cons, hend, Option.map_some',
            List.flatten_cons, List.foldl_append, hsvc]
        · rw [hih.2.1]
          simp only [List.filterMap_cons, hend, Option.map_some',
            List.flatten_cons, hsvc, List.append_assoc]
        · rw [hih.2.2]
          have hise : (availSource ps fs f).isNone = false := by
            rw [havail]; rfl
          simp [hise]
    · have hstep : includeStep fs mapName (dAcc, fAcc, ps', logs) f =
          ((svcGetKeysForMapAtEnd ps' f mapName).directKeys.foldl
              insertIfAbsent dAcc,
            fAcc ++ (svcGetKeysForMapAtEnd ps' f mapName).functionKeys,
            ps', logs) := by
        simp [includeStep, hcache]
      have havail : availSource ps fs f = some lns0 := by
        unfold availSource
        rw [← hf_agree, hcache]
        rfl
      have hsvc : svcGetKeysForMapAtEnd ps' f mapName =
          getKeysForMapAtLine lns0 mapName lns0.length true := by
        unfold svcGetKeysForMapAtEnd
        rw [hcache]
      have hend : endResultOf ps fs f mapName =
          some (getKeysForMapAtLine lns0 mapName lns0.length true) := by
        unfold endResultOf
        rw [havail]
        rfl
      rw [hstep]
      have hih := ih hnd'
        ((svcGetKeysForMapAtEnd ps' f mapName).directKeys.foldl
          insertIfAbsent dAcc)
        (fAcc ++ (svcGetKeysForMapAtEnd ps' f mapName).functionKeys)
        ps' logs hagree'
      refine ⟨?_, ?_, ?_⟩
      · rw [hih.1]
        simp only [List.filterMap_cons, hend, Option.map_some',
          List.flatten_cons, List.foldl_append, hsvc]
      · rw [hih.2.1]
        simp only [List.filterMap_cons, hend, Option.map_some',
          List.flatten_cons, hsvc, List.append_assoc]
      · rw [hih.2.2]
        have hise : (availSource ps fs f).isNone = false := by
          rw [havail]; rfl
        simp [hise]

/-- C7: `getKeysForMapWithIncludes` computes the local result at the query
line, computes each resolved included file's result as if querying at that
file's end (from the cached parser if tracked, else from disk), and merges by
set-union of `directKeys` (membership is exactly local-or-some-included,
duplicates collapse: no duplicates remain) and concatenation of
`functionKeys`; an included file that is untracked and unreadable is logged
and skipped, the query still returning the merged result of the remaining
files. -/
theorem C7_keys_with_includes_merge :
    ∀ (ps : ParserMap) (fs : FileSys) (cfg : ResolverCfg)
      (path mapName : String) (line : Nat),
      (∀ k, k ∈ (getKeysForMapWithIncludes ps fs cfg path mapName
            line).res.directKeys ↔
          (k ∈ (svcGetKeysForMap ps path mapName line).directKeys ∨
            ∃ f ∈ resolveAllIncludes fs cfg path, ∃ r,
              endResultOf ps fs f mapName = some r ∧ k ∈ r.directKeys)) ∧
        (getKeysForMapWithIncludes ps fs cfg path mapName
          line).res.directKeys.Nodup ∧
        (getKeysForMapWithIncludes ps fs cfg path mapName line).res.functionKeys =
          (svcGetKeysForMap ps path mapName line).functionKeys ++
            ((resolveAllIncludes fs cfg path).filterMap
              (fun f => (endResultOf ps fs f mapName).map
                (·.functionKeys))).flatten ∧
        (getKeysForMapWithIncludes ps fs cfg path mapName line).logs =
          (resolveAllIncludes fs cfg path).filter
            (fun f => (availSource ps fs f).isNone) := by
  intro ps fs cfg path mapName line
  have hnd : (resolveAllIncludes fs cfg path).Nodup :=
    (resolveAllIncludes_nodup fs cfg path).1
  have hspec := includeFold_spec fs mapName ps (resolveAllIncludes fs cfg path)
    hnd ((svcGetKeysForMap ps path mapName line).directKeys.foldl
      insertIfAbsent [])
    (svcGetKeysForMap ps path mapName line).functionKeys ps []
    (fun _ _ => rfl)
  have hres : (getKeysForMapWithIncludes ps fs cfg path mapName line) =
      ⟨⟨((resolveAllIncludes fs cfg path).foldl (includeStep fs mapName)
          (((svcGetKeysForMap ps path mapName line).directKeys.foldl
            insertIfAbsent []),
            (svcGetKeysForMap ps path mapName line).functionKeys, ps, [])).1,
        ((resolveAllIncludes fs cfg path).foldl (includeStep fs mapName)
          (((svcGetKeysForMap ps path mapName line).directKeys.foldl
            insertIfAbsent []),
            (svcGetKeysForMap ps path mapName line).functionKeys, ps, [])).2.1⟩,
        ((resolveAllIncludes fs cfg path).foldl (includeStep fs mapName)
          (((svcGetKeysForMap ps path mapName line).directKeys.foldl
            insertIfAbsent []),
            (svcGetKeysForMap ps path mapName line).functionKeys, ps, [])).2.2.1,
        ((resolveAllIncludes fs cfg path).foldl (includeStep fs mapName)
          (((svcGetKeysForMap ps path mapName line).directKeys.foldl
            insertIfAbsent []),
            (svcGetKeysForMap ps path mapName line).functionKeys, ps, [])).2.2.2⟩ := rfl
  refine ⟨?_, ?_, ?_, ?_⟩
  · intro k
    rw [hres]
    show k ∈ ((resolveAllIncludes fs cfg path).foldl (includeStep fs mapName)
      _).1 ↔ _
    rw [hspec.1, mem_foldl_insertIfAbsent, mem_foldl_insertIfAbsent]
    simp only [List.not_mem_nil, false_or, List.mem_flatten,
      List.mem_filterMap, Option.map_eq_some']
    constructor
    · rintro (hk | ⟨lsub, ⟨f, hf, r, hr, hrk⟩, hkl⟩)
      · exact Or.inl hk
      · exact Or.inr ⟨f, hf, r, hr, hrk ▸ hkl⟩
    · rintro (hk | ⟨f, hf, r, hr, hrk⟩)
      · exact Or.inl hk
      · exact Or.inr ⟨r.directKeys, ⟨f, hf, r, hr, rfl⟩, hrk⟩
  · rw [hres]
    show (((resolveAllIncludes fs cfg path).foldl (includeStep fs mapName)
      _).1).Nodup
    rw [hspec.1]
    exact nodup_foldl_insertIfAbsent _ _
      (nodup_foldl_insertIfAbsent _ [] List.nodup_nil)
  · rw [hres]
    show ((resolveAllIncludes fs cfg path).foldl (includeStep fs mapName)
      _).2.1 = _
    rw [hspec.2.1]
  · rw [hres]
    show ((resolveAllIncludes fs cfg path).foldl (includeStep fs mapName)
      _).2.2.2 = _
    rw [hspec.2.2]
    simp

/-- C10: once a `MapTrackingService` instance exists, invoking the
constructor again or calling `getInstance` with any (possibly different)
arguments returns the existing instance with its configuration and cached
file-parser map unchanged; only `updateConfiguration` installs a new
configuration (clearing the cached parsers). -/
theorem C10_singleton_stability :
    ∀ (i : MTService) (root : String) (incl : List String) (depth : Nat)
      (root2 : Option String) (incl2 : Option (List String)) (depth2 : Option Nat),
      constructService (some i) root incl depth = (i, some i) ∧
        getInstanceService (some i) root2 incl2 depth2 = (i, some i) ∧
        updateConfigurationService i root incl depth = ⟨root, incl, depth, []⟩ :=
  fun _ _ _ _ _ _ _ => ⟨rfl, rfl, rfl⟩

end AutoItMap


